import Mathlib

/-!
Verification development for the SmartCash SAPI address module
(`src/sapi/sapi_address.cpp`): time-lock evaluation, balance aggregation,
transaction pagination and the UTXO selection solver.

The C++ code is shallowly embedded: `CAmount` (int64) becomes `Int`, heights
and times become `Nat`, hashes and addresses become opaque `Nat` identifiers,
and the external collaborators (chain, mempool, address index) become explicit
environment records.  Wall-clock time is modelled as never exceeding the
5-second budget: every claim under verification hypothesises that the deadline
does not elapse, and the `GetTimeMicros` comparisons in the source are `false`
on that hypothesis.
-/

set_option maxRecDepth 10000

deriving instance DecidableEq for Except

/-- Error taxonomy of the SAPI layer, restricted to the codes raised by the
functions embedded here (`SAPI::Error` calls in `sapi_address.cpp`). -/
inductive SapiErr where
  | BlockNotFound
  | TxNotFound
  | InvalidSmartCashAddress
  | AddressNotFound
  | NoUtxosAvailble
  | BalanceInsufficient
  | TimedOut
  | PageOutOfRange
  deriving DecidableEq, Repr

/-- Transaction output: destination (none when `ExtractDestination` fails) and
the encoded lock value read by `CTxOut::GetLockTime()`. -/
structure TxOut where
  dest : Option Nat
  lockTime : Nat
  deriving DecidableEq, Repr

/-- Transaction: its hash and its outputs (`vout`). -/
structure Tx where
  hash : Nat
  vout : List TxOut
  deriving DecidableEq, Repr

/-- Block: its transactions (`vtx`). -/
structure Block where
  vtx : List Tx
  deriving DecidableEq, Repr

/-- Chain state read by `IsTimeLocked`: `ReadBlockFromDisk ∘ chainActive[·]`
as a partial map from height to block, `chainActive.Height()`, and the
median-time-past of the tip (or current time when there is no tip). -/
structure ChainEnv where
  blocks : Nat → Option Block
  height : Nat
  medianTime : Nat

/-- Height/time discriminator for encoded lock values.  `LOCKTIME_THRESHOLD`
is the consensus constant from the script headers (not part of `src/`); its
standard value is 500000000: below it a lock value is a block height,
at or above it a UNIX timestamp. -/
def LOCKTIME_THRESHOLD : Nat := 500000000

/-- Embedding of `IsTimeLocked` (sapi_address.cpp:51-96): locate the owning
block, locate the transaction by hash inside it, locate the output whose
destination decodes to the given address; a missing output means "unlocked";
otherwise a nonzero lock value locks the output while the current height
(height interpretation) or the median time (timestamp interpretation) is
below it.  `SAPI::Error` returns become `Except.error`. -/
def IsTimeLocked (env : ChainEnv) (blockHeight : Nat) (txhash : Nat)
    (address : Nat) : Except SapiErr Bool :=
  match env.blocks blockHeight with
  | none => .error .BlockNotFound
  | some block =>
    match block.vtx.find? (fun t => t.hash == txhash) with
    | none => .error .TxNotFound
    | some tx =>
      match tx.vout.find? (fun o => o.dest == some address) with
      | none => .ok false
      | some o =>
        if o.lockTime ≠ 0 ∧
            ((o.lockTime < LOCKTIME_THRESHOLD ∧ env.height < o.lockTime) ∨
             (LOCKTIME_THRESHOLD ≤ o.lockTime ∧ env.medianTime < o.lockTime)) then
          .ok true
        else
          .ok false

/-- Unrounded fee step of `CalculateFee` (sapi_address.cpp:473):
`(((nInputs * 148) + (2 * 34) + 10 + 9) / 1024.0) * 100000` truncated to
`CAmount`.  The double computation is exact up to the truncation: the product
`(148·n + 87) · 100000` has odd part below 2^53 for every 32-bit `n`, so the
C++ value is exactly `(148·n + 87) · 100000 / 1024` and the int64 conversion
floors it, which is this natural-number division. -/
def feeRawStep (nInputs : Nat) : Nat :=
  ((nInputs * 148) + (2 * 34) + 10 + 9) * 100000 / 1024

/-- Rounded fee step of `CalculateFee` (sapi_address.cpp:474):
`std::floor((feeCalc / 100000.0) + 0.5) * 100000`.  The exact value of
`feeCalc / 100000` is never a half-integer (that would force
`148·n + 87 = 1024·k + 512`, an odd number equal to an even one), and its
distance from every half-integer exceeds the double rounding error, so the
C++ round-half-up equals `(feeCalc + 50000) / 100000` in integers. -/
def feeRounded (nInputs : Nat) : Nat :=
  (feeRawStep nInputs + 50000) / 100000 * 100000

/-- Embedding of `CalculateFee` (sapi_address.cpp:471-476): the rounded step
fee with a fixed floor of 100000 satoshis (`std::max(feeCalc, 100000)`). -/
def CalculateFee (nInputs : Nat) : Int :=
  Int.ofNat (max (feeRounded nInputs) 100000)

/-- Key of an unspent output in the address-UTXO index (`CAddressUnspentKey`
fields used by the code: txhash, output index, owning block height; the
address type/hash components are fixed within one query and omitted). -/
structure UnspentKey where
  txhash : Nat
  index : Nat
  nBlockHeight : Nat
  deriving DecidableEq, Repr

/-- Value of an unspent output in the index (`CAddressUnspentValue.satoshis`). -/
structure UnspentValue where
  satoshis : Int
  deriving DecidableEq, Repr

/-- One entry of the address-UTXO index, as the
`std::pair<CAddressUnspentKey, CAddressUnspentValue>` the code manipulates. -/
abbrev UnspentPair := UnspentKey × UnspentValue

/-- Identity test used by `CUnspentSolution::AddUtxo` to refuse a duplicate.
Modelled from the spec: the header declaring `CAddressUnspentKey::operator==`
is not under `src/`; the spec fixes the identity of an UnspentOutputRecord as
`(txid, outputIndex)` ("Uniquely identified by `(txid, outputIndex)`",
"dedup by `(txid,index)`"). -/
def UnspentKey.sameOutput (a b : UnspentKey) : Bool :=
  a.txhash == b.txhash && a.index == b.index

/-- Selection solution (`CUnspentSolution`).  Modelled from the spec: the
struct declaration lives in `sapi/sapi_address.h`, which is not under `src/`;
the spec gives `{selectedUtxos, totalAmount, fee, change}` with a null
solution holding no selected utxos.  `AddUtxo` below is from the source. -/
structure CUnspentSolution where
  vecUtxos : List UnspentPair
  amount : Int
  fee : Int
  change : Int
  deriving DecidableEq, Repr

/-- Null solution (`CUnspentSolution::SetNull` target / default constructor).
Modelled from the spec: a solution with no selections and zero totals. -/
def nullSolution : CUnspentSolution := ⟨[], 0, 0, 0⟩

/-- Null test (`CUnspentSolution::IsNull`).  Modelled from the spec: a
solution is null when it has selected no utxos. -/
def CUnspentSolution.IsNull (s : CUnspentSolution) : Bool :=
  s.vecUtxos.isEmpty

/-- Embedding of `CUnspentSolution::AddUtxo` (sapi_address.cpp:1109-1124):
skip the utxo when one with the same output identity is already selected,
otherwise add its amount, append it and recompute the fee from the new
input count. -/
def CUnspentSolution.AddUtxo (s : CUnspentSolution) (utxo : UnspentPair) :
    CUnspentSolution :=
  if s.vecUtxos.any (fun entry => entry.1.sameOutput utxo.1) then s
  else
    { vecUtxos := s.vecUtxos ++ [utxo]
      amount := s.amount + utxo.2.satoshis
      fee := CalculateFee (s.vecUtxos.length + 1)
      change := s.change }

/-- Confirmation count required before an input may fund an InstantPay
transaction.  Modelled from the spec: `INSTANTSEND_CONFIRMATIONS_REQUIRED`
comes from the instantx headers, not under `src/`; the spec calls it "the
instant-finality confirmation threshold".  Its value does not matter to the
claims below. -/
def INSTANTSEND_CONFIRMATIONS_REQUIRED : Int := 6

/-- Environment of the selection solver: chain state for the time-lock
filter, the mempool spent-index lookup (`mempool.getSpentIndex` by txid and
output index, true when the output is consumed by a pending transaction) and
the `std::random_shuffle` oracle used in random mode, indexed by the page
being shuffled. -/
structure SelectEnv where
  chain : ChainEnv
  spentIndex : Nat → Nat → Bool
  shuffle : Nat → List UnspentPair → List UnspentPair

/-- Candidate filter of the inner selection walk (sapi_address.cpp:854-855):
keep an output unless the mempool is spending it, and under `instantpay`
require the instant-finality confirmation count. -/
def eligibleUtxo (env : SelectEnv) (fInstantPay : Bool) (u : UnspentPair) :
    Bool :=
  !env.spentIndex u.1.txhash u.1.index &&
    (!fInstantPay ||
      INSTANTSEND_CONFIRMATIONS_REQUIRED ≤
        (env.chain.height : Int) - (u.1.nBlockHeight : Int) + 1)

/-- Inner walk over one ordered slice (sapi_address.cpp:842-877), with the
per-iteration deadline check elided (the deadline is hypothesised not to
elapse).  Each candidate is added unless filtered; whenever the running
solution covers `expected + fee` its change is computed and it is compared
with the best solution so far: it replaces the best when the best is null or
(deterministic mode) when it uses fewer inputs, and the walk stops either
way.  Returns the running and best solutions. -/
def selWalk (env : SelectEnv) (expected : Int) (fRandom fInstantPay : Bool) :
    List UnspentPair → CUnspentSolution → CUnspentSolution →
    CUnspentSolution × CUnspentSolution
  | [], cur, best => (cur, best)
  | u :: rest, cur, best =>
    let cur1 := if eligibleUtxo env fInstantPay u then cur.AddUtxo u else cur
    if expected + cur1.fee ≤ cur1.amount then
      let cur2 := { cur1 with
        change := if cur1.amount = expected + cur1.fee then 0
                  else cur1.amount - expected - cur1.fee }
      if best.IsNull ∨ (¬fRandom ∧ cur2.vecUtxos.length < best.vecUtxos.length)
      then (nullSolution, cur2)
      else (cur2, best)
    else selWalk env expected fRandom fInstantPay rest cur1 best

/-- Time-lock filter pass over a fetched slice (sapi_address.cpp:823-834):
erase every output reported locked; a failing evaluation aborts the whole
call. -/
def filterUnlocked (env : SelectEnv) (address : Nat) :
    List UnspentPair → Except SapiErr (List UnspentPair)
  | [] => .ok []
  | u :: rest =>
    match IsTimeLocked env.chain u.1.nBlockHeight u.1.txhash address with
    | .error e => .error e
    | .ok locked =>
      match filterUnlocked env address rest with
      | .error e => .error e
      | .ok rest' => if locked then .ok rest' else .ok (u :: rest')

/-- Descending-amount order used by deterministic mode
(`amountSortHTL`, sapi_address.cpp:39-43). -/
def amountHTL (a b : UnspentPair) : Prop :=
  b.2.satoshis ≤ a.2.satoshis

instance : DecidableRel amountHTL :=
  fun a b => inferInstanceAs (Decidable (b.2.satoshis ≤ a.2.satoshis))

instance : IsTotal UnspentPair amountHTL :=
  ⟨fun a b => le_total b.2.satoshis a.2.satoshis⟩

instance : IsTrans UnspentPair amountHTL :=
  ⟨fun _ _ _ h1 h2 => le_trans h2 h1⟩

/-- Deterministic-mode ordering of a slice (`std::sort(..., amountSortHTL)`,
sapi_address.cpp:839): a sort by descending amount.  `std::sort` leaves the
order of equal amounts unspecified; insertion sort realizes one admissible
order. -/
def sortHTL (l : List UnspentPair) : List UnspentPair :=
  List.insertionSort amountHTL l

/-- Slice size of the selection scan (`nUtxosSlice`, sapi_address.cpp:775). -/
def nUtxosSlice : Nat := 2000

/-- One iteration's slice of the address's unspent set
(`GetUTXOs(..., nIndexOffset, nLimit)`, sapi_address.cpp:811-819): the page's
offset is `(page % nPages) * nUtxosSlice` and its limit is the remainder on
the final page when the count is not a multiple of the slice size. -/
def sliceAt (utxos : List UnspentPair) (nPages page : Nat) :
    List UnspentPair :=
  let count := utxos.length
  let offset := page % nPages * nUtxosSlice
  let limit :=
    if count % nUtxosSlice ≠ 0 ∧ page % nPages = nPages - 1 then
      count % nUtxosSlice
    else nUtxosSlice
  (utxos.drop offset).take limit

/-- The do-while slice loop of `address_utxos_amount`
(sapi_address.cpp:809-887) with the deadline checks elided: fetch the page's
slice, drop time-locked outputs, order the slice (shuffle in random mode,
descending sort otherwise), walk it, and in random mode stop as soon as a
best solution exists; otherwise advance the page and stop after a full
wrap-around (`(++nPageCurrent % nPages) != nPageStart`).  Returns the final
value of `nPageCurrent` along with the running and best solutions; the fuel
argument bounds the iteration count and equals `nPages` at the entry point,
which the wrap-around exit never exceeds. -/
def selLoop (env : SelectEnv) (address : Nat) (utxos : List UnspentPair)
    (expected : Int) (fRandom fInstantPay : Bool) (nPages pageStart : Nat) :
    Nat → Nat → CUnspentSolution → CUnspentSolution →
    Except SapiErr (Nat × CUnspentSolution × CUnspentSolution)
  | 0, page, cur, best => .ok (page, cur, best)
  | fuel + 1, page, cur, best =>
    match filterUnlocked env address (sliceAt utxos nPages page) with
    | .error e => .error e
    | .ok unlocked =>
      let ordered := if fRandom then env.shuffle page unlocked
                     else sortHTL unlocked
      let (cur', best') :=
        selWalk env expected fRandom fInstantPay ordered cur best
      if ¬best'.IsNull ∧ fRandom then .ok (page, cur', best')
      else
        let page' := page + 1
        if page' % nPages = pageStart then .ok (page', cur', best')
        else selLoop env address utxos expected fRandom fInstantPay nPages
               pageStart fuel page' cur' best'

/-- Embedding of the `address_utxos_amount` endpoint's selection core
(sapi_address.cpp:770-897), under the standing no-timeout hypothesis
(`fTimedOut` is false and every deadline comparison fails).  The page count
is `⌈count / nUtxosSlice⌉`, the starting page a `GetRand(nPages)` value
supplied as `pageStart`, and after the loop the source re-increments
`nPageCurrent` (line 892) before comparing against the starting page to
decide between `BalanceInsufficient` and `TimedOut`. -/
def address_utxos_amount (env : SelectEnv) (address : Nat)
    (utxos : List UnspentPair) (expected : Int)
    (fRandom fInstantPay : Bool) (pageStart : Nat) :
    Except SapiErr CUnspentSolution :=
  let count := utxos.length
  if count = 0 then .error .NoUtxosAvailble
  else
    let nPages := count / nUtxosSlice +
      (if count % nUtxosSlice ≠ 0 then 1 else 0)
    match selLoop env address utxos expected fRandom fInstantPay nPages
            pageStart nPages pageStart nullSolution nullSolution with
    | .error e => .error e
    | .ok (page, _, best) =>
      if (page + 1) % nPages = pageStart ∧ best.IsNull then
        .error .BalanceInsufficient
      else if best.IsNull then .error .TimedOut
      else .ok best

/-- Key of one confirmed address-index delta (`CAddressIndexKey` fields used
by the code: txhash, block height, spending direction flag). -/
structure AddressIndexKey where
  txhash : Nat
  blockHeight : Nat
  spending : Bool
  deriving DecidableEq, Repr

/-- One confirmed index delta: key plus signed satoshi amount
(`std::pair<CAddressIndexKey, CAmount>`). -/
abbrev IndexDelta := AddressIndexKey × Int

/-- One mempool delta for an address, reduced to the fields the balance
aggregation reads: the originating transaction hash
(`CMempoolAddressDeltaKey.txhash`) and the signed amount
(`CMempoolAddressDelta.amount`). -/
structure MempoolDelta where
  txhash : Nat
  amount : Int
  deriving DecidableEq, Repr

/-- Per-address result accumulated by `GetAddressesBalances`
(`CAddressBalance`, sapi_address.cpp:20-30). -/
structure CAddressBalance where
  address : Nat
  balance : Int
  locked : Int
  received : Int
  unconfirmed : Int
  deriving DecidableEq, Repr

/-- Per-address error entry of a batch balance query (`SAPI::Result`). -/
structure SapiResult where
  code : SapiErr
  address : Nat
  deriving DecidableEq, Repr

/-- Environment of the balance/transaction queries: address-key resolution
(`GetIndexKey`, none when invalid), the confirmed address index
(`GetAddressIndex`, none when the lookup fails), the mempool address index
(`mempool.getAddressIndex`, a failed lookup behaving as an empty list), the
InstantSend finality predicate by txid, and the chain state for time-lock
evaluation.  Addresses are opaque `Nat` identifiers resolving to opaque
`Nat` index keys. -/
structure BalanceEnv where
  resolve : Nat → Option Nat
  addrIndex : Nat → Option (List IndexDelta)
  mempoolIndex : Nat → List MempoolDelta
  instantLocked : Nat → Bool
  chain : ChainEnv

/-- Fold over the confirmed deltas of one address
(sapi_address.cpp:313-331): evaluate the time-lock of each delta's output
(a failed evaluation aborts the call), add locked amounts into `locked`,
positive amounts into `received`, and every amount into `balance`.  The
accumulator is `(balance, locked, received)`. -/
def confirmedFold (env : BalanceEnv) (address : Nat) :
    Int × Int × Int → List IndexDelta → Except SapiErr (Int × Int × Int)
  | acc, [] => .ok acc
  | (bal, lck, rcv), (key, value) :: rest =>
    match IsTimeLocked env.chain key.blockHeight key.txhash address with
    | .error e => .error e
    | .ok fLocked =>
      confirmedFold env address
        (bal + value,
         lck + (if fLocked then value else 0),
         rcv + (if 0 < value then value else 0))
        rest

/-- Add an amount into the shared unconfirmed-by-transaction map
(`mapUnconfirmed[txhash] += amount`, sapi_address.cpp:349): `std::map`
operator[] inserts a zero entry when absent. -/
def mapAdd (m : List (Nat × Int)) (txhash : Nat) (amount : Int) :
    List (Nat × Int) :=
  match m with
  | [] => [(txhash, amount)]
  | (t, v) :: rest =>
    if t = txhash then (t, v + amount) :: rest
    else (t, v) :: mapAdd rest txhash amount

/-- Fold over the mempool deltas of one address (sapi_address.cpp:333-354):
a delta of an InstantSend-locked transaction is folded into
`balance`/`received` as if confirmed; any other delta accumulates into the
shared unconfirmed map and the address's `unconfirmed` total.  The
accumulator is `(balance, received, unconfirmed, map)`. -/
def mempoolFold (env : BalanceEnv) :
    Int × Int × Int × List (Nat × Int) → List MempoolDelta →
    Int × Int × Int × List (Nat × Int)
  | acc, [] => acc
  | (bal, rcv, unc, m), d :: rest =>
    if env.instantLocked d.txhash then
      mempoolFold env
        (bal + d.amount, rcv + (if 0 < d.amount then d.amount else 0), unc, m)
        rest
    else
      mempoolFold env (bal, rcv, unc + d.amount, mapAdd m d.txhash d.amount)
        rest

/-- One address's pass of the `GetAddressesBalances` loop body
(sapi_address.cpp:308-356), given its confirmed and mempool deltas and an
incoming shared unconfirmed map: run both folds and build the
`CAddressBalance` record. -/
def addressBalanceOf (env : BalanceEnv) (address : Nat)
    (deltas : List IndexDelta) (mdeltas : List MempoolDelta)
    (m : List (Nat × Int)) :
    Except SapiErr (CAddressBalance × List (Nat × Int)) :=
  match confirmedFold env address (0, 0, 0) deltas with
  | .error e => .error e
  | .ok (bal, lck, rcv) =>
    let (bal2, rcv2, unc, m2) := mempoolFold env (bal, rcv, 0, m) mdeltas
    .ok (⟨address, bal2, lck, rcv2, unc⟩, m2)

/-- The per-address loop of `GetAddressesBalances` (sapi_address.cpp:286-357):
an address that fails key resolution records an `InvalidSmartCashAddress`
error and the loop continues; a failed index lookup records
`AddressNotFound` and continues; otherwise the address's snapshot is
appended.  A failed time-lock evaluation aborts the whole call
(`Except.error`).  The accumulator is `(balances, map, errors)`. -/
def balancesLoop (env : BalanceEnv) :
    List Nat → List CAddressBalance × List (Nat × Int) × List SapiResult →
    Except SapiErr (List CAddressBalance × List (Nat × Int) × List SapiResult)
  | [], acc => .ok acc
  | addr :: rest, (bals, m, errs) =>
    match env.resolve addr with
    | none =>
      balancesLoop env rest
        (bals, m, errs ++ [⟨.InvalidSmartCashAddress, addr⟩])
    | some key =>
      match env.addrIndex key with
      | none =>
        balancesLoop env rest (bals, m, errs ++ [⟨.AddressNotFound, addr⟩])
      | some deltas =>
        match addressBalanceOf env addr deltas (env.mempoolIndex key) m with
        | .error e => .error e
        | .ok (b, m2) => balancesLoop env rest (bals ++ [b], m2, errs)

/-- Outcome of a batch balance query: the per-request abort of a failed
time-lock evaluation, the aggregated per-address errors returned as one
BAD_REQUEST reply (sapi_address.cpp:359-361), or the internal error when no
balance was produced (sapi_address.cpp:363-365). -/
inductive BalancesOutcome where
  | aborted (e : SapiErr)
  | batchErrors (errs : List SapiResult)
  | internalError
  deriving DecidableEq, Repr

/-- Embedding of `GetAddressesBalances` (sapi_address.cpp:276-368): run the
per-address loop from empty accumulators; if any per-address errors were
collected, the whole call replies with exactly those errors and no balances;
an empty balance list is an internal error; otherwise the balances and the
shared unconfirmed map are returned. -/
def GetAddressesBalances (env : BalanceEnv) (vecAddr : List Nat) :
    Except BalancesOutcome (List CAddressBalance × List (Nat × Int)) :=
  match balancesLoop env vecAddr ([], [], []) with
  | .error e => .error (.aborted e)
  | .ok (bals, m, errs) =>
    if errs ≠ [] then .error (.batchErrors errs)
    else if bals = [] then .error .internalError
    else .ok (bals, m)

/-- One aggregated transaction entry of `GetAddressesTransactions`:
`(txhash, blockHeight, summed amount)` as the code's
`std::tuple<uint256, int, CAmount>`. -/
abbrev TxEntry := Nat × Nat × Int

/-- Add an amount into the first (unique) entry with the given txhash
(`std::get<2>(*found) += tx->second`, sapi_address.cpp:411). -/
def bumpEntry (txs : List TxEntry) (txhash : Nat) (amount : Int) :
    List TxEntry :=
  match txs with
  | [] => []
  | (t, h, v) :: rest =>
    if t = txhash then (t, h, v + amount) :: rest
    else (t, h, v) :: bumpEntry rest txhash amount

/-- The aggregation walk of `GetAddressesTransactions`
(sapi_address.cpp:395-414).  State: accumulated page entries, the distinct
transaction counter `totalNumTxs`, and the raw index position
(`std::distance(addressIndex.begin(), tx)`).  A delta whose txid already has
a page entry merges its amount into that entry; otherwise it is appended
when the raw position has reached the page offset and the page is not full,
and `totalNumTxs` is incremented either way. -/
def txsFold (offset pageSize : Nat) :
    List TxEntry × Nat × Nat → List IndexDelta → List TxEntry × Nat × Nat
  | acc, [] => acc
  | (txs, total, idx), (key, value) :: rest =>
    if txs.any (fun e => e.1 = key.txhash) then
      txsFold offset pageSize (bumpEntry txs key.txhash value, total, idx + 1)
        rest
    else
      let txs' :=
        if offset ≤ idx ∧ txs.length < pageSize then
          txs ++ [(key.txhash, key.blockHeight, value)]
        else txs
      txsFold offset pageSize (txs', total + 1, idx + 1) rest

/-- Embedding of `GetAddressesTransactions` (sapi_address.cpp:370-417):
resolve the address, fetch its confirmed index, reverse it when descending,
and run the aggregation walk with offset `(pageNum - 1) * pageSize`.
Returns the page entries and `totalNumTxs`. -/
def GetAddressesTransactions (env : BalanceEnv) (address : Nat)
    (pageNum pageSize : Nat) (ascending : Bool) :
    Except SapiErr (List TxEntry × Nat) :=
  match env.resolve address with
  | none => .error .InvalidSmartCashAddress
  | some key =>
    match env.addrIndex key with
    | none => .error .AddressNotFound
    | some addressIndex =>
      let seq := if ascending then addressIndex else addressIndex.reverse
      let (txs, total, _) :=
        txsFold ((pageNum - 1) * pageSize) pageSize ([], 0, 0) seq
      .ok (txs, total)

/-- Amount of a list of selected utxos. -/
def amtOf (l : List UnspentPair) : Int :=
  (l.map (fun u => u.2.satoshis)).sum

/-- Sum of the amounts of a list of confirmed deltas. -/
def confSum (deltas : List IndexDelta) : Int :=
  (deltas.map (fun d => d.2)).sum

/-- Sum of the positive amounts of a list of confirmed deltas. -/
def confPosSum (deltas : List IndexDelta) : Int :=
  ((deltas.map (fun d => d.2)).filter (fun v => decide (0 < v))).sum

/-- Sum of the amounts of the confirmed deltas whose output the time-lock
evaluator reports locked (sign-preserving). -/
def lockedSum (env : BalanceEnv) (address : Nat)
    (deltas : List IndexDelta) : Int :=
  ((deltas.filter (fun d =>
      IsTimeLocked env.chain d.1.blockHeight d.1.txhash address ==
        Except.ok true)).map (fun d => d.2)).sum

/-- Mempool deltas of InstantSend-locked transactions. -/
def instantDeltas (env : BalanceEnv) (mdeltas : List MempoolDelta) :
    List MempoolDelta :=
  mdeltas.filter (fun d => env.instantLocked d.txhash)

/-- Mempool deltas of transactions that are not InstantSend-locked. -/
def nonInstantDeltas (env : BalanceEnv) (mdeltas : List MempoolDelta) :
    List MempoolDelta :=
  mdeltas.filter (fun d => !env.instantLocked d.txhash)

/-- Sum of the amounts of a list of mempool deltas. -/
def mempSum (l : List MempoolDelta) : Int :=
  (l.map (fun d => d.amount)).sum

/-- Sum of the positive amounts of a list of mempool deltas. -/
def mempPosSum (l : List MempoolDelta) : Int :=
  ((l.map (fun d => d.amount)).filter (fun v => decide (0 < v))).sum

/-- Spec-side formula of claim C7, following the spec's words: "the sum of
only the positive confirmed deltas whose output is currently time-locked".
It exists to be compared against the balance loop's `locked` accumulation,
which has no positivity test. -/
def lockedPositiveSumSpec (env : BalanceEnv) (address : Nat)
    (deltas : List IndexDelta) : Int :=
  ((deltas.filter (fun d =>
      (IsTimeLocked env.chain d.1.blockHeight d.1.txhash address ==
        Except.ok true) && decide (0 < d.2))).map (fun d => d.2)).sum

/-- Per-address error produced by the balance loop for one address: an
unresolvable address records `InvalidSmartCashAddress`, a failed index
lookup records `AddressNotFound`, and a processed address records nothing. -/
def errOf (env : BalanceEnv) (a : Nat) : Option SapiResult :=
  match env.resolve a with
  | none => some ⟨.InvalidSmartCashAddress, a⟩
  | some key =>
    match env.addrIndex key with
    | none => some ⟨.AddressNotFound, a⟩
    | some _ => none

/-- Per-address snapshot produced by the balance loop for one address, when
any: the balance record computed from its own confirmed and mempool deltas
(the shared unconfirmed map does not influence the record). -/
def snapOf (env : BalanceEnv) (a : Nat) : Option CAddressBalance :=
  match env.resolve a with
  | none => none
  | some key =>
    match env.addrIndex key with
    | none => none
    | some deltas =>
      match addressBalanceOf env a deltas (env.mempoolIndex key) [] with
      | .error _ => none
      | .ok (b, _) => some b

/-- Concrete batch-balance environment: address 2 resolves to a key holding
one confirmed delta of 5 (its output unlocked), while address 1 fails key
resolution. -/
def invalidBatchEnv : BalanceEnv :=
  ⟨fun a => if a = 2 then some 2 else none,
   fun k => if k = 2 then some [(⟨100, 10, false⟩, 5)] else none,
   fun _ => [], fun _ => false,
   ⟨fun _ => some ⟨[⟨100, [⟨some 43, 0⟩]⟩]⟩, 50, 1000⟩⟩

/-- Merge of a delta sequence into transaction entries with no page window:
the reference aggregation the full-window walk of
`GetAddressesTransactions` realizes — a delta whose txid already has an
entry bumps that entry, any other delta appends a fresh entry. -/
def specMerge (txs : List TxEntry) : List IndexDelta → List TxEntry
  | [] => txs
  | (key, value) :: rest =>
    if txs.any (fun e => e.1 = key.txhash) then
      specMerge (bumpEntry txs key.txhash value) rest
    else specMerge (txs ++ [(key.txhash, key.blockHeight, value)]) rest

/-- Number of deltas whose txid is new relative to a seen set (and to the
earlier deltas of the sequence): the value `totalNumTxs` takes in a
full-window walk. -/
def countNew (seen : List Nat) : List IndexDelta → Nat
  | [] => 0
  | (key, _) :: rest =>
    if key.txhash ∈ seen then countNew seen rest
    else countNew (seen ++ [key.txhash]) rest + 1

/-- Total amount the delta sequence assigns to one transaction hash. -/
def txAmtSum (seq : List IndexDelta) (t : Nat) : Int :=
  ((seq.filter (fun d => d.1.txhash == t)).map (fun d => d.2)).sum

/-- Confirmed deltas with a repeated txid (200) used against the
transaction paginator: three rows over two distinct transactions. -/
def dupTxDeltas : List IndexDelta :=
  [(⟨100, 5, false⟩, 5), (⟨200, 6, false⟩, 3), (⟨200, 7, false⟩, 2)]

/-- Environment serving `dupTxDeltas` for address 1. -/
def dupTxEnv : BalanceEnv :=
  ⟨fun a => if a = 1 then some 1 else none,
   fun k => if k = 1 then some dupTxDeltas else none,
   fun _ => [], fun _ => false, ⟨fun _ => none, 0, 0⟩⟩

/-- Output identities of a selection list, the dedup key of `AddUtxo`. -/
def keysOf (l : List UnspentPair) : List (Nat × Nat) :=
  l.map (fun u => (u.1.txhash, u.1.index))

/-- Fee field a running solution holds after selecting exactly `l`:
zero for the null solution, else the fee of its input count. -/
def feeOf (l : List UnspentPair) : Int :=
  if l.isEmpty then 0 else CalculateFee l.length

/-- Running solution state after the walk has added exactly `l`, in order. -/
def solOf (l : List UnspentPair) : CUnspentSolution :=
  ⟨l, amtOf l, feeOf l, 0⟩

/-- Satisfaction test of the walk: the selected amount covers the requested
amount plus the fee at the current input count. -/
def satisfies (expected : Int) (l : List UnspentPair) : Prop :=
  expected + feeOf l ≤ amtOf l

instance : DecidablePred (satisfies expected) :=
  fun l => inferInstanceAs (Decidable (expected + feeOf l ≤ amtOf l))

/-- Solution the walk hands to the best slot on acceptance: the running
solution with its change computed. -/
def accepted (expected : Int) (l : List UnspentPair) : CUnspentSolution :=
  { solOf l with
    change := if amtOf l = expected + feeOf l then 0
              else amtOf l - expected - feeOf l }

/-- Greedy stop of the walk over the eligible candidates `g`, having already
selected `done`: the selection at the first point where the running solution
satisfies the request, if any. -/
def firstSat (expected : Int) (done : List UnspentPair) :
    List UnspentPair → Option (List UnspentPair)
  | [] => none
  | u :: g =>
    if satisfies expected (done ++ [u]) then some (done ++ [u])
    else firstSat expected (done ++ [u]) g

/-- The C1 scenario's chain: every height resolves to a block holding the
single funding transaction 100 whose only output pays address 42 with no
time lock. -/
def scen1Env : SelectEnv :=
  ⟨⟨fun _ => some ⟨[⟨100, [⟨some 42, 0⟩]⟩]⟩, 50, 1000⟩,
   fun _ _ => false, fun _ l => l⟩

/-- The C1 scenario's unspent set: outputs of 5, 3 and 1 SMART. -/
def scen1Utxos : List UnspentPair :=
  [(⟨100, 0, 10⟩, ⟨500000000⟩), (⟨100, 1, 10⟩, ⟨300000000⟩),
   (⟨100, 2, 10⟩, ⟨100000000⟩)]

/-- A full slice of filler outputs: the 2000 outputs of transaction 100,
one coin (100000000 satoshis) each. -/
def smalls : List UnspentPair :=
  (List.range 2000).map (fun i => (⟨100, i, 10⟩, ⟨100000000⟩))

/-- The one filler output that stays eligible under `bigPageEnv`. -/
def smallAt0 : UnspentPair := (⟨100, 0, 10⟩, ⟨100000000⟩)

/-- A single large output of transaction 200, worth 100000 coins. -/
def bigU : UnspentPair := (⟨200, 0, 10⟩, ⟨10000000000000⟩)

/-- An unspent set spanning two scan slices: the 2000 filler outputs
followed by the large output. -/
def bigPageUtxos : List UnspentPair := smalls ++ [bigU]

/-- Environment for the two-slice counterexample: both transactions carry an
unlocked output to address 42; of transaction 100's outputs only index 0 is
free of mempool spends, and transaction 200's output is free. -/
def bigPageEnv : SelectEnv :=
  ⟨⟨fun _ => some ⟨[⟨100, [⟨some 42, 0⟩]⟩, ⟨200, [⟨some 42, 0⟩]⟩]⟩, 50, 1000⟩,
   fun t i => decide (t = 100 ∧ 1 ≤ i), fun _ l => l⟩

/-- Environment whose mempool is spending every output: no candidate is
eligible. -/
def allSpentEnv : SelectEnv :=
  ⟨⟨fun _ => some ⟨[⟨100, [⟨some 42, 0⟩]⟩, ⟨200, [⟨some 42, 0⟩]⟩]⟩, 50, 1000⟩,
   fun _ _ => true, fun _ l => l⟩

/-- Consistency of a running solution: its amount field is the sum of its
selected amounts and its selections are pairwise distinct by output
identity. -/
def GoodSol (s : CUnspentSolution) : Prop :=
  s.amount = amtOf s.vecUtxos ∧ (keysOf s.vecUtxos).Nodup

/-- Invariant of the best slot: null, or a consistent satisfying solution
whose change is exactly its surplus over the requested amount plus fee. -/
def BestOk (expected : Int) (b : CUnspentSolution) : Prop :=
  b.vecUtxos = [] ∨
    (GoodSol b ∧ expected + b.fee ≤ b.amount ∧
      b.change = b.amount - expected - b.fee)

/-- Claim C9: when the owning block and the transaction are found but no
output of that transaction decodes to the given destination address,
`IsTimeLocked` succeeds and reports the output as unlocked. -/
theorem claim_C9_no_matching_output_unlocked
    (env : ChainEnv) (blockHeight txhash address : Nat)
    (block : Block) (tx : Tx)
    (hblock : env.blocks blockHeight = some block)
    (htx : block.vtx.find? (fun t => t.hash == txhash) = some tx)
    (hout : ∀ o ∈ tx.vout, o.dest ≠ some address) :
    IsTimeLocked env blockHeight txhash address = .ok false := by
  have hfind : tx.vout.find? (fun o => o.dest == some address) = none := by
    refine List.find?_eq_none.mpr (fun o ho => ?_)
    simpa using hout o ho
  unfold IsTimeLocked
  simp only [hblock, htx, hfind]

/-- Witness for C9 at a concrete chain: one block holding one transaction
whose only output pays a different address. -/
theorem claim_C9_witness :
    IsTimeLocked ⟨fun _ => some ⟨[⟨5, [⟨some 9, 77⟩]⟩]⟩, 10, 10⟩ 3 5 7 =
      .ok false :=
  claim_C9_no_matching_output_unlocked _ 3 5 7 ⟨[⟨5, [⟨some 9, 77⟩]⟩]⟩
    ⟨5, [⟨some 9, 77⟩]⟩ rfl rfl (by decide)

/-- Claim C10: an encoded lock value of exactly 0 on the matching output
means "no time lock": `IsTimeLocked` reports unlocked for every chain
height and median time, the zero case being decided before the
height/time-threshold comparison. -/
theorem claim_C10_zero_locktime_unlocked
    (env : ChainEnv) (blockHeight txhash address : Nat)
    (block : Block) (tx : Tx) (o : TxOut)
    (hblock : env.blocks blockHeight = some block)
    (htx : block.vtx.find? (fun t => t.hash == txhash) = some tx)
    (hout : tx.vout.find? (fun o => o.dest == some address) = some o)
    (hzero : o.lockTime = 0) :
    IsTimeLocked env blockHeight txhash address = .ok false := by
  unfold IsTimeLocked
  simp only [hblock, htx, hout]
  simp [hzero]

/-- Witness for C10 at a concrete chain of height 0: the matching output
carries lock value 0 (0 is below the height/time threshold, and any positive
height lock would exceed the chain height, yet the output is unlocked). -/
theorem claim_C10_witness :
    IsTimeLocked ⟨fun _ => some ⟨[⟨5, [⟨some 7, 0⟩]⟩]⟩, 0, 0⟩ 3 5 7 =
      .ok false :=
  claim_C10_zero_locktime_unlocked _ 3 5 7 ⟨[⟨5, [⟨some 7, 0⟩]⟩]⟩
    ⟨5, [⟨some 7, 0⟩]⟩ ⟨some 7, 0⟩ rfl rfl rfl rfl

/-- Monotonicity of the unrounded fee step in the input count. -/
theorem feeRawStep_mono {m n : Nat} (h : m ≤ n) :
    feeRawStep m ≤ feeRawStep n := by
  unfold feeRawStep
  exact Nat.div_le_div_right
    (Nat.mul_le_mul_right _ (Nat.add_le_add_right
      (Nat.add_le_add_right (Nat.add_le_add_right
        (Nat.mul_le_mul_right _ h) _) _) _))

/-- Monotonicity of the rounded fee step in the input count. -/
theorem feeRounded_mono {m n : Nat} (h : m ≤ n) :
    feeRounded m ≤ feeRounded n := by
  unfold feeRounded
  exact Nat.mul_le_mul_right _
    (Nat.div_le_div_right (Nat.add_le_add_right (feeRawStep_mono h) _))

/-- Claim C4: the fee is monotonically non-decreasing in the number of
selected inputs, never below the fixed floor of 100000 satoshis, and equal
to the floor whenever the rounded step value falls below it. -/
theorem claim_C4_fee_monotone_with_floor (n : Nat) :
    CalculateFee n ≤ CalculateFee (n + 1) ∧
    100000 ≤ CalculateFee n ∧
    (feeRounded n < 100000 → CalculateFee n = 100000) := by
  refine ⟨?_, ?_, ?_⟩
  · exact Int.ofNat_le.mpr
      (max_le_max (feeRounded_mono (Nat.le_succ n)) le_rfl)
  · exact Int.ofNat_le.mpr (le_max_right _ _)
  · intro h
    unfold CalculateFee
    rw [Nat.max_eq_right (Nat.le_of_lt h)]
    rfl

/-- Witness for C4 at one input: the rounded step value (0) is below the
floor, the fee equals the floor, and the two-input fee is no smaller. -/
theorem claim_C4_witness :
    feeRounded 1 < 100000 ∧ CalculateFee 1 = 100000 ∧
    CalculateFee 1 ≤ CalculateFee 2 :=
  ⟨by decide, (claim_C4_fee_monotone_with_floor 1).2.2 (by decide),
    (claim_C4_fee_monotone_with_floor 1).1⟩

/-- Characterization of a successful confirmed-delta fold: starting from any
accumulator it adds the delta sum into the balance, the locked sum into the
locked total and the positive sum into the received total. -/
theorem confirmedFold_ok (env : BalanceEnv) (address : Nat) :
    ∀ (deltas : List IndexDelta) (bal lck rcv : Int) (out : Int × Int × Int),
      confirmedFold env address (bal, lck, rcv) deltas = .ok out →
      out = (bal + confSum deltas, lck + lockedSum env address deltas,
        rcv + confPosSum deltas) := by
  intro deltas
  induction deltas with
  | nil =>
    intro bal lck rcv out h
    simp only [confirmedFold] at h
    cases h
    simp [confSum, lockedSum, confPosSum]
  | cons d rest ih =>
    intro bal lck rcv out h
    obtain ⟨key, value⟩ := d
    simp only [confirmedFold] at h
    cases hl : IsTimeLocked env.chain key.blockHeight key.txhash address with
    | error e => simp [hl] at h
    | ok b =>
      rw [hl] at h
      have hout := ih _ _ _ _ h
      subst hout
      cases b <;> by_cases hv : 0 < value <;>
        simp [confSum, lockedSum, confPosSum, hl, hv, Prod.ext_iff] <;> omega

/-- Characterization of the mempool-delta fold: InstantSend-locked deltas
are folded into balance and (when positive) received, the remaining deltas
accumulate into the unconfirmed total; the shared map only affects the map
component. -/
theorem mempoolFold_eq (env : BalanceEnv) :
    ∀ (mdeltas : List MempoolDelta) (bal rcv unc : Int)
      (m : List (Nat × Int)),
      (mempoolFold env (bal, rcv, unc, m) mdeltas).1 =
        bal + mempSum (instantDeltas env mdeltas) ∧
      (mempoolFold env (bal, rcv, unc, m) mdeltas).2.1 =
        rcv + mempPosSum (instantDeltas env mdeltas) ∧
      (mempoolFold env (bal, rcv, unc, m) mdeltas).2.2.1 =
        unc + mempSum (nonInstantDeltas env mdeltas) := by
  intro mdeltas
  induction mdeltas with
  | nil =>
    intro bal rcv unc m
    simp [mempoolFold, mempSum, mempPosSum, instantDeltas, nonInstantDeltas]
  | cons d rest ih =>
    intro bal rcv unc m
    by_cases hi : env.instantLocked d.txhash <;>
      by_cases hv : 0 < d.amount <;>
        simp [mempoolFold, mempSum, mempPosSum, instantDeltas,
          nonInstantDeltas, hi, hv, ih] <;> omega

/-- Characterization of one successful address pass of the balance loop:
each reported field is an order-insensitive sum over the address's
confirmed and mempool deltas. -/
theorem addressBalanceOf_ok (env : BalanceEnv) (address : Nat)
    (deltas : List IndexDelta) (mdeltas : List MempoolDelta)
    (m : List (Nat × Int)) (b : CAddressBalance) (m2 : List (Nat × Int))
    (h : addressBalanceOf env address deltas mdeltas m = .ok (b, m2)) :
    b.address = address ∧
    b.balance = confSum deltas + mempSum (instantDeltas env mdeltas) ∧
    b.locked = lockedSum env address deltas ∧
    b.received = confPosSum deltas + mempPosSum (instantDeltas env mdeltas) ∧
    b.unconfirmed = mempSum (nonInstantDeltas env mdeltas) := by
  unfold addressBalanceOf at h
  split at h
  case _ e hc => exact Except.noConfusion h
  case _ acc bal lck rcv hc =>
    have hacc := confirmedFold_ok env address deltas 0 0 0 _ hc
    simp only [Prod.mk.injEq] at hacc
    obtain ⟨hb, hl, hr⟩ := hacc
    have hm := mempoolFold_eq env mdeltas bal rcv 0 m
    obtain ⟨hm1, hm2, hm3⟩ := hm
    injection h with h
    injection h with hrec hmap
    subst hrec
    dsimp only
    refine ⟨rfl, ?_, ?_, ?_, ?_⟩
    · rw [hm1, hb]; omega
    · rw [hl]; omega
    · rw [hm2, hr]; omega
    · rw [hm3]; omega

/-- Permutation invariance of the confirmed-delta sum. -/
theorem confSum_perm {d1 d2 : List IndexDelta} (h : d1.Perm d2) :
    confSum d1 = confSum d2 :=
  (h.map _).sum_eq

/-- Permutation invariance of the positive confirmed-delta sum. -/
theorem confPosSum_perm {d1 d2 : List IndexDelta} (h : d1.Perm d2) :
    confPosSum d1 = confPosSum d2 :=
  ((h.map _).filter _).sum_eq

/-- Permutation invariance of the mempool sums over the instant-finalized
sublist. -/
theorem instant_mempSum_perm (env : BalanceEnv)
    {d1 d2 : List MempoolDelta} (h : d1.Perm d2) :
    mempSum (instantDeltas env d1) = mempSum (instantDeltas env d2) :=
  ((h.filter _).map _).sum_eq

/-- Permutation invariance of the positive mempool sum over the
instant-finalized sublist. -/
theorem instant_mempPosSum_perm (env : BalanceEnv)
    {d1 d2 : List MempoolDelta} (h : d1.Perm d2) :
    mempPosSum (instantDeltas env d1) = mempPosSum (instantDeltas env d2) :=
  (((h.filter _).map _).filter _).sum_eq

/-- Permutation invariance of the mempool sum over the non-instant sublist. -/
theorem nonInstant_mempSum_perm (env : BalanceEnv)
    {d1 d2 : List MempoolDelta} (h : d1.Perm d2) :
    mempSum (nonInstantDeltas env d1) = mempSum (nonInstantDeltas env d2) :=
  ((h.filter _).map _).sum_eq

/-- Claim C5: a successfully processed address reports `balance` as the sum
of all confirmed deltas plus the instant-finalized mempool deltas,
`received` as the sum of the positive such deltas, and `unconfirmed` as the
sum of the remaining mempool deltas, all independent of iteration order; and
the concrete scenario of one confirmed receive of 1000 and one non-instant
mempool spend of -400 reports balance 1000, received 1000 and
unconfirmed -400. -/
theorem claim_C5_balance_aggregation :
    (∀ (env : BalanceEnv) (address : Nat) (deltas : List IndexDelta)
       (mdeltas : List MempoolDelta) (m m2 : List (Nat × Int))
       (b : CAddressBalance),
       addressBalanceOf env address deltas mdeltas m = .ok (b, m2) →
       b.balance = confSum deltas + mempSum (instantDeltas env mdeltas) ∧
       b.received =
         confPosSum deltas + mempPosSum (instantDeltas env mdeltas) ∧
       b.unconfirmed = mempSum (nonInstantDeltas env mdeltas) ∧
       (∀ (deltas' : List IndexDelta) (mdeltas' : List MempoolDelta)
          (m' m2' : List (Nat × Int)) (b' : CAddressBalance),
          deltas'.Perm deltas → mdeltas'.Perm mdeltas →
          addressBalanceOf env address deltas' mdeltas' m' = .ok (b', m2') →
          b'.balance = b.balance ∧ b'.received = b.received ∧
            b'.unconfirmed = b.unconfirmed)) ∧
    addressBalanceOf
      ⟨fun _ => none, fun _ => none, fun _ => [], fun _ => false,
        ⟨fun _ => some ⟨[⟨100, [⟨some 43, 0⟩]⟩]⟩, 50, 1000⟩⟩
      42 [(⟨100, 10, false⟩, 1000)] [⟨200, -400⟩] [] =
      .ok (⟨42, 1000, 0, 1000, -400⟩, [(200, -400)]) := by
  constructor
  · intro env address deltas mdeltas m m2 b h
    obtain ⟨-, hb, -, hr, hu⟩ := addressBalanceOf_ok env address deltas
      mdeltas m b m2 h
    refine ⟨hb, hr, hu, ?_⟩
    intro deltas' mdeltas' m' m2' b' hpd hpm h'
    obtain ⟨-, hb', -, hr', hu'⟩ := addressBalanceOf_ok env address deltas'
      mdeltas' m' b' m2' h'
    refine ⟨?_, ?_, ?_⟩
    · rw [hb', hb, confSum_perm hpd, instant_mempSum_perm env hpm]
    · rw [hr', hr, confPosSum_perm hpd, instant_mempPosSum_perm env hpm]
    · rw [hu', hu, nonInstant_mempSum_perm env hpm]
  · decide

/-- Witness for C5: the general clause applied to the scenario input. -/
theorem claim_C5_witness :
    ∃ b : CAddressBalance,
      addressBalanceOf
        ⟨fun _ => none, fun _ => none, fun _ => [], fun _ => false,
          ⟨fun _ => some ⟨[⟨100, [⟨some 43, 0⟩]⟩]⟩, 50, 1000⟩⟩
        42 [(⟨100, 10, false⟩, 1000)] [⟨200, -400⟩] [] = .ok (b, [(200, -400)]) ∧
      b.balance = 1000 ∧ b.received = 1000 ∧ b.unconfirmed = -400 := by
  refine ⟨⟨42, 1000, 0, 1000, -400⟩, by decide, ?_⟩
  have h := claim_C5_balance_aggregation.1
    ⟨fun _ => none, fun _ => none, fun _ => [], fun _ => false,
      ⟨fun _ => some ⟨[⟨100, [⟨some 43, 0⟩]⟩]⟩, 50, 1000⟩⟩
    42 [(⟨100, 10, false⟩, 1000)] [⟨200, -400⟩] [] [(200, -400)]
    ⟨42, 1000, 0, 1000, -400⟩ (by decide)
  exact ⟨by rw [h.1]; decide, by rw [h.2.1]; decide, by rw [h.2.2.1]; decide⟩

/-- Counterexample to claim C7: a spending (negative) confirmed delta whose
transaction carries a time-locked change output back to the address is added
into `locked` sign-preservingly (the loop has no positivity test), so
`locked` is -500 although the sum of the positive locked deltas is 0. -/
theorem claim_C7_counterexample :
    addressBalanceOf
      ⟨fun _ => none, fun _ => none, fun _ => [], fun _ => false,
        ⟨fun _ => some ⟨[⟨100, [⟨some 42, 20⟩]⟩]⟩, 5, 0⟩⟩
      42 [(⟨100, 10, true⟩, -500)] [] [] =
      .ok (⟨42, -500, -500, 0, 0⟩, []) ∧
    lockedPositiveSumSpec
      ⟨fun _ => none, fun _ => none, fun _ => [], fun _ => false,
        ⟨fun _ => some ⟨[⟨100, [⟨some 42, 20⟩]⟩]⟩, 5, 0⟩⟩
      42 [(⟨100, 10, true⟩, -500)] = 0 ∧
    (-500 : Int) ≠ 0 := by
  decide

/-- Claim C7 amended: the `locked` field equals the sign-preserving sum of
all confirmed deltas whose output the time-lock evaluator reports locked;
negative (spending) deltas contribute too, so `balance - locked` need not be
the spendable total. -/
theorem claim_C7_locked_sum (env : BalanceEnv) (address : Nat)
    (deltas : List IndexDelta) (mdeltas : List MempoolDelta)
    (m m2 : List (Nat × Int)) (b : CAddressBalance)
    (h : addressBalanceOf env address deltas mdeltas m = .ok (b, m2)) :
    b.locked = lockedSum env address deltas :=
  (addressBalanceOf_ok env address deltas mdeltas m b m2 h).2.2.1

/-- Witness for the amended C7 at the counterexample input: the locked field
equals the sign-preserving locked sum, here -500. -/
theorem claim_C7_witness :
    (⟨42, -500, -500, 0, 0⟩ : CAddressBalance).locked =
      lockedSum
        ⟨fun _ => none, fun _ => none, fun _ => [], fun _ => false,
          ⟨fun _ => some ⟨[⟨100, [⟨some 42, 20⟩]⟩]⟩, 5, 0⟩⟩
        42 [(⟨100, 10, true⟩, -500)] :=
  claim_C7_locked_sum
    ⟨fun _ => none, fun _ => none, fun _ => [], fun _ => false,
      ⟨fun _ => some ⟨[⟨100, [⟨some 42, 20⟩]⟩]⟩, 5, 0⟩⟩
    42 [(⟨100, 10, true⟩, -500)] [] [] []
    ⟨42, -500, -500, 0, 0⟩ (by decide)

/-- The balance record computed for one address does not depend on the
incoming shared unconfirmed map: only the map component does. -/
theorem addressBalanceOf_map_irrel (env : BalanceEnv) (address : Nat)
    (deltas : List IndexDelta) (mdeltas : List MempoolDelta)
    (m m2 : List (Nat × Int)) (b : CAddressBalance)
    (h : addressBalanceOf env address deltas mdeltas m = .ok (b, m2)) :
    ∃ m2', addressBalanceOf env address deltas mdeltas [] = .ok (b, m2') := by
  unfold addressBalanceOf at h ⊢
  split at h
  · exact Except.noConfusion h
  case _ acc bal lck rcv hc =>
    injection h with h1
    injection h1 with hb hm
    subst hb
    have e1 := mempoolFold_eq env mdeltas bal rcv 0 m
    have e2 := mempoolFold_eq env mdeltas bal rcv 0 []
    rcases e : mempoolFold env (bal, rcv, 0, []) mdeltas with ⟨bal2, rcv2, unc2, mm⟩
    rw [e] at e2
    simp only at e2
    refine ⟨mm, ?_⟩
    dsimp only
    simp [Prod.mk.injEq, CAddressBalance.mk.injEq, Except.ok.injEq,
      e1.1, e1.2.1, e1.2.2, e2.1, e2.2.1, e2.2.2]

/-- Characterization of a successful balance loop run: every address is
examined, the collected errors are exactly the per-address failures in
order, and the collected balances are exactly the snapshots of the
processable addresses in order — no failure suppresses the processing of the
remaining addresses. -/
theorem balancesLoop_ok (env : BalanceEnv) :
    ∀ (addrs : List Nat) (bals0 : List CAddressBalance)
      (m0 : List (Nat × Int)) (errs0 : List SapiResult)
      (bals : List CAddressBalance) (m : List (Nat × Int))
      (errs : List SapiResult),
      balancesLoop env addrs (bals0, m0, errs0) = .ok (bals, m, errs) →
      errs = errs0 ++ addrs.filterMap (errOf env) ∧
      bals = bals0 ++ addrs.filterMap (snapOf env) := by
  intro addrs
  induction addrs with
  | nil =>
    intro bals0 m0 errs0 bals m errs h
    simp only [balancesLoop] at h
    cases h
    simp
  | cons a rest ih =>
    intro bals0 m0 errs0 bals m errs h
    cases hres : env.resolve a with
    | none =>
      simp only [balancesLoop, hres] at h
      have := ih _ _ _ _ _ _ h
      simp [errOf, snapOf, hres, this.1, this.2]
    | some key =>
      cases hidx : env.addrIndex key with
      | none =>
        simp only [balancesLoop, hres, hidx] at h
        have := ih _ _ _ _ _ _ h
        simp [errOf, snapOf, hres, hidx, this.1, this.2]
      | some deltas =>
        cases hab : addressBalanceOf env a deltas (env.mempoolIndex key) m0 with
        | error e => simp [balancesLoop, hres, hidx, hab] at h
        | ok p =>
          obtain ⟨b, m2⟩ := p
          simp only [balancesLoop, hres, hidx, hab] at h
          have := ih _ _ _ _ _ _ h
          obtain ⟨m2', hab'⟩ := addressBalanceOf_map_irrel env a deltas
            (env.mempoolIndex key) m0 m2 b hab
          simp [errOf, snapOf, hres, hidx, hab', this.1, this.2]

/-- Counterexample to claim C6: in the batch `[1, 2]` address 1 fails key
resolution while address 2 is valid; the call returns only the aggregated
error reply, so the successfully processed snapshot of address 2 is not
returned to the caller. -/
theorem claim_C6_counterexample :
    GetAddressesBalances invalidBatchEnv [1, 2] =
      .error (.batchErrors [⟨.InvalidSmartCashAddress, 1⟩]) ∧
    snapOf invalidBatchEnv 2 = some ⟨2, 5, 0, 5, 0⟩ := by
  decide

/-- Claim C6 amended: an address failing key resolution only records a
per-address `InvalidAddress` error and every remaining address is still
processed — the loop's errors and balances are exactly the per-address
failures and snapshots, in order; however, when any error was collected the
call returns only the aggregated errors and the successful snapshots are not
returned to the caller. -/
theorem claim_C6_batch_processing :
    (∀ (env : BalanceEnv) (addrs : List Nat) (bals : List CAddressBalance)
       (m : List (Nat × Int)) (errs : List SapiResult),
       balancesLoop env addrs ([], [], []) = .ok (bals, m, errs) →
       errs = addrs.filterMap (errOf env) ∧
       bals = addrs.filterMap (snapOf env)) ∧
    (∀ (env : BalanceEnv) (addrs : List Nat) (bals : List CAddressBalance)
       (m : List (Nat × Int)) (errs : List SapiResult),
       balancesLoop env addrs ([], [], []) = .ok (bals, m, errs) →
       errs ≠ [] →
       GetAddressesBalances env addrs = .error (.batchErrors errs)) := by
  constructor
  · intro env addrs bals m errs h
    have := balancesLoop_ok env addrs [] [] [] bals m errs h
    simpa using this
  · intro env addrs bals m errs h hne
    unfold GetAddressesBalances
    rw [h]
    simp [hne]

/-- Witness for the amended C6 at the counterexample batch: the loop
processes both addresses (one error for address 1, one snapshot for
address 2) and the wrapper returns only the aggregated errors. -/
theorem claim_C6_witness :
    [⟨.InvalidSmartCashAddress, 1⟩] =
      ([1, 2].filterMap (errOf invalidBatchEnv) : List SapiResult) ∧
    [(⟨2, 5, 0, 5, 0⟩ : CAddressBalance)] =
      [1, 2].filterMap (snapOf invalidBatchEnv) ∧
    GetAddressesBalances invalidBatchEnv [1, 2] =
      .error (.batchErrors [⟨.InvalidSmartCashAddress, 1⟩]) := by
  have h1 := claim_C6_batch_processing.1 invalidBatchEnv [1, 2]
    [⟨2, 5, 0, 5, 0⟩] [] [⟨.InvalidSmartCashAddress, 1⟩] (by decide)
  have h2 := claim_C6_batch_processing.2 invalidBatchEnv [1, 2]
    [⟨2, 5, 0, 5, 0⟩] [] [⟨.InvalidSmartCashAddress, 1⟩] (by decide)
    (by decide)
  exact ⟨h1.1, h1.2, h2⟩

/-- Bumping an entry's amount leaves the entry txids unchanged. -/
theorem bumpEntry_map_fst (txs : List TxEntry) (t : Nat) (v : Int) :
    (bumpEntry txs t v).map (fun e => e.1) = txs.map (fun e => e.1) := by
  induction txs with
  | nil => rfl
  | cons e rest ih =>
    obtain ⟨u, bh, w⟩ := e
    by_cases h : u = t <;> simp [bumpEntry, h, ih]

/-- The transaction-aggregation walk keeps the entry txids duplicate-free
for every page window. -/
theorem txsFold_nodup (offset pageSize : Nat) :
    ∀ (seq : List IndexDelta) (txs : List TxEntry) (total idx : Nat),
      ((txs.map (fun e => e.1)).Nodup) →
      (((txsFold offset pageSize (txs, total, idx) seq).1).map
        (fun e => e.1)).Nodup := by
  intro seq
  induction seq with
  | nil => intro txs total idx h; simpa [txsFold] using h
  | cons d rest ih =>
    intro txs total idx h
    obtain ⟨key, value⟩ := d
    simp only [txsFold]
    by_cases hmem : txs.any (fun e => e.1 = key.txhash) = true
    · rw [if_pos hmem]
      exact ih _ _ _ (by rw [bumpEntry_map_fst]; exact h)
    · rw [if_neg hmem]
      have ht : key.txhash ∉ txs.map (fun e => e.1) := by
        intro hc
        obtain ⟨e, he, heq⟩ := List.mem_map.mp hc
        exact hmem (List.any_eq_true.mpr ⟨e, he, by simp [heq]⟩)
      by_cases hwin : offset ≤ idx ∧ txs.length < pageSize
      · rw [if_pos hwin]
        refine ih _ _ _ ?_
        rw [List.map_append, List.nodup_append]
        exact ⟨h, by simp, fun a ha hb =>
          ht ((List.mem_singleton.mp (by simpa using hb)) ▸ ha)⟩
      · rw [if_neg hwin]
        exact ih _ _ _ h

/-- The new-txid count of a delta sequence equals the growth of the seen
set: the number of distinct txids of the sequence not already seen. -/
theorem countNew_toFinset :
    ∀ (seq : List IndexDelta) (seen : List Nat),
      countNew seen seq =
        ((seq.map (fun d => d.1.txhash)).toFinset ∪ seen.toFinset).card -
          seen.toFinset.card := by
  intro seq
  induction seq with
  | nil => intro seen; simp [countNew]
  | cons d rest ih =>
    intro seen
    obtain ⟨key, value⟩ := d
    by_cases hmem : key.txhash ∈ seen
    · have hset : key.txhash ∈ seen.toFinset := List.mem_toFinset.mpr hmem
      simp only [countNew, hmem, if_pos, List.map_cons, List.toFinset_cons]
      rw [ih seen, Finset.insert_union,
        Finset.insert_eq_self.mpr (Finset.mem_union_right _ hset)]
    · have hset : key.txhash ∉ seen.toFinset :=
        fun hc => hmem (List.mem_toFinset.mp hc)
      simp only [countNew, hmem, if_neg, not_false_iff, List.map_cons,
        List.toFinset_cons]
      rw [ih (seen ++ [key.txhash])]
      have hseen2 : (seen ++ [key.txhash]).toFinset =
          insert key.txhash seen.toFinset := by
        ext a; simp [or_comm]
      rw [hseen2]
      have h1 : (rest.map (fun d => d.1.txhash)).toFinset ∪
          insert key.txhash seen.toFinset =
          insert key.txhash
            ((rest.map (fun d => d.1.txhash)).toFinset ∪ seen.toFinset) := by
        ext a; simp [or_comm, or_left_comm]
      have h2 : insert key.txhash (rest.map (fun d => d.1.txhash)).toFinset ∪
          seen.toFinset =
          insert key.txhash
            ((rest.map (fun d => d.1.txhash)).toFinset ∪ seen.toFinset) := by
        ext a; simp [or_assoc]
      rw [h1, h2, Finset.card_insert_of_not_mem hset]
      have hle : insert key.txhash seen.toFinset ⊆
          insert key.txhash
            ((rest.map (fun d => d.1.txhash)).toFinset ∪ seen.toFinset) := by
        intro a ha
        rcases Finset.mem_insert.mp ha with h | h
        · exact Finset.mem_insert.mpr (Or.inl h)
        · exact Finset.mem_insert.mpr (Or.inr (Finset.mem_union_right _ h))
      have hcard := Finset.card_le_card hle
      rw [Finset.card_insert_of_not_mem hset] at hcard
      omega

/-- With no page offset and a page large enough for every delta row, the
aggregation walk is exactly the reference merge: every first sighting is
appended, every repeat is bumped, and `totalNumTxs` counts the new txids. -/
theorem txsFold_fullWindow (pageSize : Nat) :
    ∀ (seq : List IndexDelta) (txs : List TxEntry) (total idx : Nat),
      txs.length + seq.length ≤ pageSize →
      txsFold 0 pageSize (txs, total, idx) seq =
        (specMerge txs seq, total + countNew (txs.map (fun e => e.1)) seq,
          idx + seq.length) := by
  intro seq
  induction seq with
  | nil => intro txs total idx hlen; simp [txsFold, specMerge, countNew]
  | cons d rest ih =>
    intro txs total idx hlen
    obtain ⟨key, value⟩ := d
    simp only [txsFold, specMerge, countNew]
    by_cases hmem : txs.any (fun e => e.1 = key.txhash) = true
    · have hseen : key.txhash ∈ txs.map (fun e => e.1) := by
        obtain ⟨e, he, heq⟩ := List.any_eq_true.mp hmem
        exact List.mem_map.mpr ⟨e, he, by simpa using heq⟩
      rw [if_pos hmem, if_pos hmem, if_pos hseen]
      have hlen' : (bumpEntry txs key.txhash value).length + rest.length ≤
          pageSize := by
        have : (bumpEntry txs key.txhash value).length = txs.length := by
          have := bumpEntry_map_fst txs key.txhash value
          have h1 := congrArg List.length this
          simpa using h1
        simp only [this]
        simp only [List.length_cons] at hlen
        omega
      rw [ih _ _ _ hlen', bumpEntry_map_fst]
      simp only [Prod.mk.injEq, true_and, and_true, List.length_cons]
      omega
    · have hseen : key.txhash ∉ txs.map (fun e => e.1) := by
        intro hc
        obtain ⟨e, he, heq⟩ := List.mem_map.mp hc
        exact hmem (List.any_eq_true.mpr ⟨e, he, by simp [heq]⟩)
      have hwin : 0 ≤ idx ∧ txs.length < pageSize := by
        simp only [List.length_cons] at hlen
        exact ⟨Nat.zero_le _, by omega⟩
      rw [if_neg hmem, if_neg hmem, if_neg hseen, if_pos hwin]
      have hlen' : (txs ++ [(key.txhash, key.blockHeight, value)]).length +
          rest.length ≤ pageSize := by
        simp only [List.length_append, List.length_cons, List.length_nil] at *
        omega
      rw [ih _ _ _ hlen']
      simp only [Prod.mk.injEq, List.map_append, List.map_cons, List.map_nil,
        true_and, and_true, List.length_cons]
      omega

/-- Effect of an amount bump on an entry lookup: only the bumped txid's
amount changes, by exactly the bumped value. -/
theorem bumpEntry_find (u : Nat) (v : Int) (t : Nat) :
    ∀ (txs : List TxEntry),
    ((bumpEntry txs u v).find? (fun e => e.1 == t)).map (fun e => e.2.2) =
      if t = u then
        ((txs.find? (fun e => e.1 == t)).map (fun e => e.2.2)).map
          (fun a => a + v)
      else (txs.find? (fun e => e.1 == t)).map (fun e => e.2.2) := by
  intro txs
  induction txs with
  | nil => by_cases h : t = u <;> simp [bumpEntry, h]
  | cons e rest ih =>
    obtain ⟨w, bh, x⟩ := e
    by_cases hwu : w = u
    · subst hwu
      by_cases hwt : t = w
      · subst hwt
        simp [bumpEntry, List.find?_cons]
      · simp [bumpEntry, List.find?_cons, hwt, Ne.symm hwt]
    · by_cases hwt : w = t
      · subst hwt
        simp [bumpEntry, hwu, List.find?_cons]
      · simp [bumpEntry, hwu, List.find?_cons, hwt, ih]

/-- Unfolding of the per-transaction amount over a cons: the head delta
contributes exactly when its txid matches. -/
theorem txAmtSum_cons (key : AddressIndexKey) (val : Int)
    (rest : List IndexDelta) (t : Nat) :
    txAmtSum ((key, val) :: rest) t =
      if key.txhash = t then val + txAmtSum rest t else txAmtSum rest t := by
  by_cases h : key.txhash = t <;> simp [txAmtSum, List.filter_cons, h]

/-- Lookup characterization of the reference merge: a txid that already had
an entry ends with its amount increased by the sequence's total for that
txid, a txid first seen in the sequence ends with exactly that total, and
any other txid has no entry. -/
theorem specMerge_find :
    ∀ (seq : List IndexDelta) (txs : List TxEntry) (t : Nat),
    ((specMerge txs seq).find? (fun e => e.1 == t)).map (fun e => e.2.2) =
      match (txs.find? (fun e => e.1 == t)).map (fun e => e.2.2) with
      | some v => some (v + txAmtSum seq t)
      | none =>
        if seq.any (fun d => d.1.txhash == t) then some (txAmtSum seq t)
        else none := by
  intro seq
  induction seq with
  | nil =>
    intro txs t
    cases h : (txs.find? (fun e => e.1 == t)).map (fun e => e.2.2) <;>
      simp [specMerge, txAmtSum, h]
  | cons d rest ih =>
    intro txs t
    obtain ⟨key, val⟩ := d
    simp only [specMerge]
    by_cases hany : txs.any (fun e => e.1 = key.txhash) = true
    · rw [if_pos hany]
      rw [ih (bumpEntry txs key.txhash val) t, bumpEntry_find]
      by_cases ht : t = key.txhash
      · have hsome :
            (txs.find? (fun e => e.1 == t)).isSome = true := by
          obtain ⟨e, he, hpe⟩ := List.any_eq_true.mp hany
          refine List.find?_isSome.mpr ⟨e, he, ?_⟩
          simp only [decide_eq_true_eq] at hpe
          simp [hpe, ht]
        obtain ⟨fe, hfe⟩ := Option.isSome_iff_exists.mp hsome
        rw [if_pos ht, hfe, txAmtSum_cons, if_pos ht.symm]
        simp [add_assoc]
      · have hkt : ¬(key.txhash = t) := fun hc => ht hc.symm
        rw [if_neg ht, txAmtSum_cons, if_neg hkt]
        cases h : (txs.find? (fun e => e.1 == t)).map (fun e => e.2.2) with
        | none =>
          simp only [h, List.any_cons]
          by_cases hr : (rest.any fun d => d.1.txhash == t) = true
          · rw [if_pos hr, if_pos (by simp [hr])]
          · rw [if_neg hr, if_neg (by
              simp only [Bool.or_eq_true, not_or]
              exact ⟨by simp [hkt], hr⟩)]
        | some v => simp only [h]
    · rw [if_neg hany]
      rw [ih (txs ++ [(key.txhash, key.blockHeight, val)]) t]
      rw [List.find?_append]
      by_cases ht : t = key.txhash
      · have hnone : txs.find? (fun e => e.1 == t) = none := by
          refine List.find?_eq_none.mpr (fun e he hpe => ?_)
          refine hany (List.any_eq_true.mpr ⟨e, he, ?_⟩)
          simp only [beq_iff_eq] at hpe
          simp [hpe, ht]
        have hb : (((key.txhash, key.blockHeight, val) : TxEntry).1 == t) =
            true := by simp [ht]
        rw [hnone, Option.none_or,
          @List.find?_cons_of_pos TxEntry (fun e => e.1 == t)
            (key.txhash, key.blockHeight, val) [] hb]
        rw [txAmtSum_cons, if_pos ht.symm]
        simp
        exact Or.inl ht.symm
      · have hkt : ¬(key.txhash = t) := fun hc => ht hc.symm
        have hb : (((key.txhash, key.blockHeight, val) : TxEntry).1 == t) =
            false := by simp [hkt]
        rw [List.find?_cons_of_neg _ (by simp [hb]), List.find?_nil,
          Option.or_none]
        rw [txAmtSum_cons, if_neg hkt]
        cases h : (txs.find? (fun e => e.1 == t)).map (fun e => e.2.2) with
        | none =>
          simp only [h, List.any_cons]
          by_cases hr : (rest.any fun d => d.1.txhash == t) = true
          · rw [if_pos hr, if_pos (by simp [hr])]
          · rw [if_neg hr, if_neg (by
              simp only [Bool.or_eq_true, not_or]
              exact ⟨by simp [hkt], hr⟩)]
        | some v => simp only [h]

/-- Counterexample to claim C8: with page size 1, the two deltas of txid 200
fall outside the assembled page, so each of its rows is counted separately —
`totalCount` is 3 though only 2 distinct txids exist. -/
theorem claim_C8_counterexample :
    GetAddressesTransactions dupTxEnv 1 1 1 true = .ok ([(100, 5, 5)], 3) ∧
    ((dupTxDeltas.map (fun d => d.1.txhash)).toFinset).card = 2 ∧
    (3 : Nat) ≠ 2 := by
  decide

/-- Claim C8 amended: the aggregation never creates two entries for one
txid (their txids are duplicate-free for every page window), and when the
page window covers every delta row (`pageNumber = 1`, `pageSize ≥` row
count) `totalCount` is the number of distinct txids and the single entry of
each txid holds the sum of all its delta amounts; with a smaller window a
txid whose first sighting was not appended is counted once per row. -/
theorem claim_C8_tx_aggregation :
    (∀ (env : BalanceEnv) (address pageNum pageSize : Nat) (ascending : Bool)
       (entries : List TxEntry) (total : Nat),
       GetAddressesTransactions env address pageNum pageSize ascending =
         .ok (entries, total) →
       (entries.map (fun e => e.1)).Nodup) ∧
    (∀ (env : BalanceEnv) (address key : Nat) (deltas : List IndexDelta)
       (pageSize : Nat) (ascending : Bool) (entries : List TxEntry)
       (total : Nat),
       env.resolve address = some key →
       env.addrIndex key = some deltas →
       deltas.length ≤ pageSize →
       GetAddressesTransactions env address 1 pageSize ascending =
         .ok (entries, total) →
       total = ((deltas.map (fun d => d.1.txhash)).toFinset).card ∧
       ∀ t : Nat,
         (entries.find? (fun e => e.1 == t)).map (fun e => e.2.2) =
           if deltas.any (fun d => d.1.txhash == t) then
             some (txAmtSum deltas t)
           else none) := by
  constructor
  · intro env address pageNum pageSize ascending entries total h
    cases hres : env.resolve address with
    | none => simp [GetAddressesTransactions, hres] at h
    | some key =>
      cases hidx : env.addrIndex key with
      | none => simp [GetAddressesTransactions, hres, hidx] at h
      | some deltas =>
        simp only [GetAddressesTransactions, hres, hidx] at h
        rcases hfold : txsFold ((pageNum - 1) * pageSize) pageSize ([], 0, 0)
          (if ascending then deltas else deltas.reverse) with ⟨txs, tot, idx⟩
        rw [hfold] at h
        injection h with h1
        injection h1 with he ht
        subst he
        have := txsFold_nodup ((pageNum - 1) * pageSize) pageSize
          (if ascending then deltas else deltas.reverse) [] 0 0 (by simp)
        rw [hfold] at this
        exact this
  · intro env address key deltas pageSize ascending entries total hres hidx
      hlen h
    simp only [GetAddressesTransactions, hres, hidx] at h
    have hlen' : ([] : List TxEntry).length +
        (if ascending then deltas else deltas.reverse).length ≤ pageSize := by
      cases ascending <;> simp [hlen]
    have hfull := txsFold_fullWindow pageSize
      (if ascending then deltas else deltas.reverse) [] 0 0 hlen'
    simp only [Nat.sub_self, Nat.zero_mul, Nat.one_mul] at h
    rw [hfull] at h
    injection h with h1
    injection h1 with he ht
    subst he
    constructor
    · rw [← ht]
      rw [countNew_toFinset]
      cases ascending with
      | false =>
        simp [List.map_reverse]
      | true => simp
    · intro t
      rw [specMerge_find]
      cases ascending with
      | true => simp
      | false =>
        simp
        by_cases hr : (deltas.any fun d => d.1.txhash == t) = true
        · rw [if_pos hr, if_pos (show
            (deltas.reverse.any fun d => d.1.txhash == t) = true by
              rw [List.any_reverse]; exact hr)]
          unfold txAmtSum
          rw [List.filter_reverse, List.map_reverse, List.sum_reverse]
        · rw [if_neg hr, if_neg (show
            ¬(deltas.reverse.any fun d => d.1.txhash == t) = true by
              rw [List.any_reverse]; exact hr)]

/-- Witness for the amended C8 at the duplicated-txid deltas with a
full-size page: two distinct transactions are counted and txid 200's single
entry carries the summed amount 3 + 2. -/
theorem claim_C8_witness :
    GetAddressesTransactions dupTxEnv 1 1 3 true =
      .ok ([(100, 5, 5), (200, 6, 5)], 2) ∧
    (2 : Nat) = ((dupTxDeltas.map (fun d => d.1.txhash)).toFinset).card ∧
    (([(100, 5, 5), (200, 6, 5)] : List TxEntry).find?
      (fun e => e.1 == 200)).map (fun e => e.2.2) = some 5 := by
  have h := claim_C8_tx_aggregation.2 dupTxEnv 1 1 dupTxDeltas 3 true
    [(100, 5, 5), (200, 6, 5)] 2 (by decide) (by decide) (by decide)
    (by decide)
  refine ⟨by decide, h.1, ?_⟩
  rw [h.2 200]
  decide

/-- Amounts add over concatenation of selections. -/
theorem amtOf_append (l1 l2 : List UnspentPair) :
    amtOf (l1 ++ l2) = amtOf l1 + amtOf l2 := by
  simp [amtOf]

/-- The duplicate test of `AddUtxo` is membership of the output identity. -/
theorem sameOutput_any_iff (l : List UnspentPair) (k : UnspentKey) :
    (l.any (fun entry => entry.1.sameOutput k)) = true ↔
      (k.txhash, k.index) ∈ keysOf l := by
  simp [keysOf, UnspentKey.sameOutput, List.any_eq_true, List.mem_map]

/-- Adding a fresh output to a running solution appends it and updates the
amount and fee fields accordingly. -/
theorem AddUtxo_notMem (d : List UnspentPair) (u : UnspentPair)
    (h : (u.1.txhash, u.1.index) ∉ keysOf d) :
    (solOf d).AddUtxo u = solOf (d ++ [u]) := by
  have hany : (d.any (fun entry => entry.1.sameOutput u.1)) = false := by
    rw [← Bool.not_eq_true]
    intro hc
    exact h ((sameOutput_any_iff d u.1).mp hc)
  simp only [CUnspentSolution.AddUtxo, solOf, hany, Bool.false_eq_true,
    if_neg, ite_eq_right_iff]
  simp [amtOf_append, amtOf, feeOf, List.isEmpty_iff]

/-- Characterization of the deterministic walk from a null best solution:
it adds the eligible candidates in order and stops at the first satisfying
selection, which it accepts; when no stop occurs it ends holding all
eligible candidates with the best still null.  Requires the output
identities in play to be duplicate-free and the incoming selection to be
unsatisfying. -/
theorem selWalk_null (env : SelectEnv) (expected : Int)
    (fInstantPay : Bool) :
    ∀ (l done : List UnspentPair),
      (keysOf (done ++ l.filter (eligibleUtxo env fInstantPay))).Nodup →
      ¬ satisfies expected done →
      selWalk env expected false fInstantPay l (solOf done) nullSolution =
        match firstSat expected done
            (l.filter (eligibleUtxo env fInstantPay)) with
        | none =>
          (solOf (done ++ l.filter (eligibleUtxo env fInstantPay)),
            nullSolution)
        | some d' => (nullSolution, accepted expected d') := by
  intro l
  induction l with
  | nil =>
    intro done hnd hns
    simp [selWalk, firstSat]
  | cons u rest ih =>
    intro done hnd hns
    by_cases he : eligibleUtxo env fInstantPay u = true
    · rw [List.filter_cons_of_pos he] at hnd ⊢
      have hkey : (u.1.txhash, u.1.index) ∉ keysOf done := by
        intro hc
        simp only [keysOf, List.map_append, List.nodup_append] at hnd
        exact hnd.2.2 hc (List.mem_map.mpr ⟨u, List.mem_cons_self u _, rfl⟩)
      simp only [selWalk, he, if_true, AddUtxo_notMem done u hkey]
      by_cases hs : satisfies expected (done ++ [u])
      · rw [if_pos (show expected + (solOf (done ++ [u])).fee ≤
            (solOf (done ++ [u])).amount from hs)]
        rw [firstSat, if_pos hs]
        simp [nullSolution, CUnspentSolution.IsNull, accepted, solOf]
      · rw [if_neg (show ¬(expected + (solOf (done ++ [u])).fee ≤
            (solOf (done ++ [u])).amount) from hs)]
        rw [firstSat, if_neg hs]
        have hnd' : (keysOf ((done ++ [u]) ++
            rest.filter (eligibleUtxo env fInstantPay))).Nodup := by
          rw [List.append_assoc]
          exact hnd
        rw [ih (done ++ [u]) hnd' hs, List.append_assoc]
        rfl
    · rw [List.filter_cons_of_neg (by simpa using he)] at hnd ⊢
      simp only [selWalk, he, Bool.false_eq_true, if_false]
      rw [if_neg (show ¬(expected + (solOf done).fee ≤
        (solOf done).amount) from hns)]
      exact ih done hnd hns

/-- When the greedy stop never fires, no prefix of the eligible candidates
satisfies the request. -/
theorem firstSat_none (expected : Int) :
    ∀ (g done : List UnspentPair), ¬ satisfies expected done →
      firstSat expected done g = none →
      ∀ j ≤ g.length, ¬ satisfies expected (done ++ g.take j) := by
  intro g
  induction g with
  | nil =>
    intro done hns h j hj
    have hj0 : j = 0 := by simpa using hj
    subst hj0
    simpa using hns
  | cons u g ih =>
    intro done hns h j hj
    rw [firstSat] at h
    by_cases hs : satisfies expected (done ++ [u])
    · rw [if_pos hs] at h; exact Option.noConfusion h
    · rw [if_neg hs] at h
      match j with
      | 0 => simpa using hns
      | j' + 1 =>
        have := ih (done ++ [u]) hs h j' (by simpa using hj)
        simpa [List.append_assoc] using this

/-- When the greedy stop fires, it returns the shortest satisfying prefix
extension: some first `k ≥ 1` candidates were added, the result satisfies
the request, and no shorter prefix did. -/
theorem firstSat_some (expected : Int) :
    ∀ (g done d' : List UnspentPair), ¬ satisfies expected done →
      firstSat expected done g = some d' →
      ∃ k, 1 ≤ k ∧ k ≤ g.length ∧ d' = done ++ g.take k ∧
        satisfies expected d' ∧
        ∀ j < k, ¬ satisfies expected (done ++ g.take j) := by
  intro g
  induction g with
  | nil => intro done d' hns h; exact Option.noConfusion h
  | cons u g ih =>
    intro done d' hns h
    rw [firstSat] at h
    by_cases hs : satisfies expected (done ++ [u])
    · rw [if_pos hs] at h
      injection h with h
      refine ⟨1, le_rfl, by simp, by simp [← h], h ▸ hs, ?_⟩
      intro j hj
      interval_cases j
      simpa using hns
    · rw [if_neg hs] at h
      obtain ⟨k, hk1, hkle, hd, hsat, hmin⟩ := ih (done ++ [u]) d' hs h
      refine ⟨k + 1, by omega, by simpa using hkle, ?_, hsat, ?_⟩
      · rw [hd, List.append_assoc]
        rfl
      · intro j hj
        match j with
        | 0 => simpa using hns
        | j' + 1 =>
          have := hmin j' (by omega)
          simpa [List.append_assoc] using this

/-- A bound on one more taken element: extending a prefix by one element of
a list bounded by `a` adds at most `a`. -/
theorem amt_take_succ_le (a : Int) :
    ∀ (l : List UnspentPair) (j : Nat),
      (∀ x ∈ l, x.2.satoshis ≤ a) → j < l.length →
      amtOf (l.take (j + 1)) ≤ a + amtOf (l.take j) := by
  intro l
  induction l with
  | nil => intro j hb hj; simp at hj
  | cons c m ih =>
    intro j hb hj
    match j with
    | 0 =>
      simp only [List.take_succ_cons, List.take_zero]
      have := hb c (List.mem_cons_self c m)
      simp [amtOf]
      omega
    | t + 1 =>
      simp only [List.take_succ_cons]
      have hbm : ∀ x ∈ m, x.2.satoshis ≤ a :=
        fun x hx => hb x (List.mem_cons_of_mem c hx)
      have := ih t hbm (by simpa using hj)
      simp only [amtOf, List.map_cons, List.sum_cons] at *
      omega

/-- Prefix domination in a descending-sorted list: any sublist is worth at
most the prefix of its own length. -/
theorem amt_sublist_le_take :
    ∀ (l s : List UnspentPair), List.Sorted amountHTL l → s.Sublist l →
      amtOf s ≤ amtOf (l.take s.length) := by
  intro l s hsort hsub
  induction hsub with
  | slnil => simp
  | @cons s l a hsub ih =>
    obtain ⟨hbound, hsl⟩ := List.sorted_cons.mp hsort
    have h1 := ih hsl
    match hl : s.length with
    | 0 =>
      rw [List.length_eq_zero] at hl
      subst hl
      simp
    | j + 1 =>
      have hjlen : j < l.length := by
        have := hsub.length_le
        omega
      have h2 := amt_take_succ_le a.2.satoshis l j
        (fun x hx => hbound x hx) hjlen
      rw [hl] at h1
      simp only [List.take_succ_cons, amtOf, List.map_cons, List.sum_cons]
      simp only [amtOf, Nat.succ_eq_add_one] at h1 h2
      omega
  | @cons₂ s l a hsub ih =>
    obtain ⟨hbound, hsl⟩ := List.sorted_cons.mp hsort
    have h1 := ih hsl
    simp only [List.length_cons, List.take_succ_cons, amtOf, List.map_cons,
      List.sum_cons]
    simp only [amtOf] at h1
    omega

/-- With at most one slice worth of outputs, the single page is the whole
unspent set. -/
theorem sliceAt_single (utxos : List UnspentPair)
    (hlen : utxos.length ≤ nUtxosSlice) :
    sliceAt utxos 1 0 = utxos := by
  simp only [sliceAt, nUtxosSlice] at *
  simp only [Nat.zero_mod, Nat.zero_mul, List.drop_zero]
  by_cases hmod : utxos.length % 2000 ≠ 0
  · have hlt : utxos.length < 2000 := by omega
    rw [if_pos (show utxos.length % 2000 ≠ 0 ∧ True from ⟨hmod, trivial⟩),
      Nat.mod_eq_of_lt hlt, List.take_length]
  · rw [if_neg (show ¬(utxos.length % 2000 ≠ 0 ∧ True) from
      fun hc => hmod hc.1)]
    exact List.take_of_length_le hlen

/-- An empty selection cannot satisfy a positive requested amount. -/
theorem satisfies_nil (expected : Int) (hexp : 1 ≤ expected) :
    ¬ satisfies expected [] := by
  simp [satisfies, feeOf, amtOf]
  omega

/-- Reduction of the deterministic selection call on an address whose
outputs fit in one slice: it succeeds with the greedy stop selection of the
sorted unlocked eligible candidates, and fails with `BalanceInsufficient`
when no prefix satisfies. -/
theorem select_onePage (env : SelectEnv) (address : Nat)
    (utxos unlocked : List UnspentPair) (expected : Int) (fInstantPay : Bool)
    (hne : utxos ≠ []) (hlen : utxos.length ≤ nUtxosSlice)
    (hexp : 1 ≤ expected)
    (hunlock : filterUnlocked env address utxos = .ok unlocked)
    (hnd : (keysOf ((sortHTL unlocked).filter
      (eligibleUtxo env fInstantPay))).Nodup) :
    address_utxos_amount env address utxos expected false fInstantPay 0 =
      match firstSat expected []
          ((sortHTL unlocked).filter (eligibleUtxo env fInstantPay)) with
      | none => .error .BalanceInsufficient
      | some d' => .ok (accepted expected d') := by
  have hcount : ¬(utxos.length = 0) := by
    simpa using fun hc => hne (List.length_eq_zero.mp hc)
  have hpages : utxos.length / nUtxosSlice +
      (if utxos.length % nUtxosSlice ≠ 0 then 1 else 0) = 1 := by
    simp only [nUtxosSlice] at *
    by_cases hmod : utxos.length % 2000 ≠ 0
    · rw [if_pos hmod]
      omega
    · rw [if_neg hmod]
      omega
  have hns0 : ¬ satisfies expected [] := satisfies_nil expected hexp
  have hwalk := selWalk_null env expected fInstantPay
    (sortHTL unlocked) [] (by simpa using hnd) hns0
  simp only [address_utxos_amount]
  rw [if_neg hcount, hpages]
  simp only [selLoop, sliceAt_single utxos hlen, hunlock]
  simp only [Bool.false_eq_true, if_false, show (solOf [] = nullSolution)
    from rfl] at hwalk ⊢
  rw [hwalk]
  rcases hfs : firstSat expected []
      ((sortHTL unlocked).filter (eligibleUtxo env fInstantPay)) with _ | d'
  · simp [CUnspentSolution.IsNull, nullSolution]
  · obtain ⟨k, hk1, hkle, hd, hsat, hmin⟩ :=
      firstSat_some expected _ [] d' hns0 hfs
    have hdne : d' ≠ [] := by
      intro hc
      subst hc
      have := congrArg List.length hd
      simp at this
      omega
    simp [accepted, solOf, hdne, CUnspentSolution.IsNull, nullSolution]

/-- Adding a candidate to a consistent running solution keeps it
consistent: the amount stays the sum of the selections and the output
identities stay duplicate-free, because `AddUtxo` skips candidates whose
output is already selected. -/
theorem AddUtxo_goodSol (s : CUnspentSolution) (u : UnspentPair)
    (h : GoodSol s) : GoodSol (s.AddUtxo u) := by
  obtain ⟨ha, hn⟩ := h
  by_cases hmem : (s.vecUtxos.any (fun entry => entry.1.sameOutput u.1)) = true
  · simp only [CUnspentSolution.AddUtxo, hmem, if_true]
    exact ⟨ha, hn⟩
  · simp only [CUnspentSolution.AddUtxo, hmem, Bool.false_eq_true, if_false]
    constructor
    · simp [amtOf_append, amtOf, ha]
    · have hkey : (u.1.txhash, u.1.index) ∉ keysOf s.vecUtxos :=
        fun hc => hmem ((sameOutput_any_iff s.vecUtxos u.1).mpr hc)
      simp only [keysOf, List.map_append, List.map_cons, List.map_nil]
      rw [List.nodup_append]
      exact ⟨hn, by simp, fun a ha' hb =>
        hkey ((List.mem_singleton.mp (by simpa using hb)) ▸ ha')⟩

/-- The inner candidate walk preserves consistency of the running solution
and the accepted-solution property of the best solution: a best solution is
either still null or is consistent, satisfies the requested amount plus fee,
and has change equal to amount minus requested minus fee. -/
theorem selWalk_inv (env : SelectEnv) (expected : Int)
    (fRandom fInstantPay : Bool) :
    ∀ (l : List UnspentPair) (cur best : CUnspentSolution),
      GoodSol cur → BestOk expected best →
      GoodSol (selWalk env expected fRandom fInstantPay l cur best).1 ∧
      BestOk expected (selWalk env expected fRandom fInstantPay l cur best).2 := by
  intro l
  induction l with
  | nil => intro cur best hc hb; exact ⟨hc, hb⟩
  | cons u rest ih =>
    intro cur best hc hb
    simp only [selWalk]
    set cur1 := if eligibleUtxo env fInstantPay u then cur.AddUtxo u else cur
      with hcur1
    have hc1 : GoodSol cur1 := by
      rw [hcur1]
      by_cases he : eligibleUtxo env fInstantPay u = true
      · simpa [he] using AddUtxo_goodSol cur u hc
      · simpa [he] using hc
    by_cases hs : expected + cur1.fee ≤ cur1.amount
    · rw [if_pos hs]
      set cur2 : CUnspentSolution := { cur1 with
        change := if cur1.amount = expected + cur1.fee then 0
                  else cur1.amount - expected - cur1.fee } with hcur2
      have hbest2 : BestOk expected cur2 := by
        right
        refine ⟨⟨hc1.1, hc1.2⟩, hs, ?_⟩
        by_cases heq : cur1.amount = expected + cur1.fee
        · simp [hcur2, heq]
        · simp [hcur2, heq]
      by_cases hacc : best.IsNull = true ∨
          (¬fRandom = true ∧ cur2.vecUtxos.length < best.vecUtxos.length)
      · rw [if_pos hacc]
        refine ⟨⟨by simp [nullSolution, amtOf], by simp [nullSolution, keysOf]⟩,
          hbest2⟩
      · rw [if_neg hacc]
        exact ⟨hc1, hb⟩
    · rw [if_neg hs]
      exact ih cur1 best hc1 hb

/-- The page loop preserves the walk invariants of `selWalk_inv` over any
number of slices: a successful run returns a consistent running solution
and a best solution that is null or accepted. -/
theorem selLoop_inv (env : SelectEnv) (address : Nat)
    (utxos : List UnspentPair) (expected : Int)
    (fRandom fInstantPay : Bool) (nPages pageStart : Nat) :
    ∀ (fuel page : Nat) (cur best : CUnspentSolution)
      (out : Nat × CUnspentSolution × CUnspentSolution),
      GoodSol cur → BestOk expected best →
      selLoop env address utxos expected fRandom fInstantPay nPages pageStart
        fuel page cur best = .ok out →
      GoodSol out.2.1 ∧ BestOk expected out.2.2 := by
  intro fuel
  induction fuel with
  | zero =>
    intro page cur best out hc hb h
    simp only [selLoop] at h
    cases h
    exact ⟨hc, hb⟩
  | succ fuel ih =>
    intro page cur best out hc hb h
    simp only [selLoop] at h
    cases hf : filterUnlocked env address (sliceAt utxos nPages page) with
    | error e => rw [hf] at h; exact Except.noConfusion h
    | ok unlocked =>
      simp only [hf] at h
      have hwalk := selWalk_inv env expected fRandom fInstantPay
        (if fRandom = true then env.shuffle page unlocked
         else sortHTL unlocked) cur best hc hb
      set w := selWalk env expected fRandom fInstantPay
        (if fRandom = true then env.shuffle page unlocked
         else sortHTL unlocked) cur best with hw
      by_cases hcond : (¬(w.2.IsNull = true) ∧ fRandom = true)
      · rw [if_pos hcond] at h
        cases h
        exact ⟨hwalk.1, hwalk.2⟩
      · rw [if_neg hcond] at h
        by_cases hpage : (page + 1) % nPages = pageStart
        · rw [if_pos hpage] at h
          cases h
          exact ⟨hwalk.1, hwalk.2⟩
        · rw [if_neg hpage] at h
          exact ih (page + 1) w.1 w.2 out hwalk.1 hwalk.2 h

/-- Claim C3: every solution returned by `address_utxos_amount` has an
amount equal to the sum of its selected utxo values, selections pairwise
distinct by (txid, output index), amount at least the requested amount plus
the fee, and change equal to amount minus requested minus fee — hence the
change is nonnegative, and it is exactly zero when the amount meets the
requested amount plus fee exactly. -/
theorem claim_C3_solution_invariants (env : SelectEnv) (address : Nat)
    (utxos : List UnspentPair) (expected : Int)
    (fRandom fInstantPay : Bool) (pageStart : Nat)
    (sol : CUnspentSolution)
    (h : address_utxos_amount env address utxos expected fRandom fInstantPay
      pageStart = .ok sol) :
    sol.amount = amtOf sol.vecUtxos ∧
    (keysOf sol.vecUtxos).Nodup ∧
    expected + sol.fee ≤ sol.amount ∧
    sol.change = sol.amount - expected - sol.fee ∧
    0 ≤ sol.change ∧
    (sol.amount = expected + sol.fee → sol.change = 0) := by
  simp only [address_utxos_amount] at h
  by_cases hc : utxos.length = 0
  · rw [if_pos hc] at h; exact Except.noConfusion h
  · rw [if_neg hc] at h
    cases hloop : selLoop env address utxos expected fRandom fInstantPay
        (utxos.length / nUtxosSlice +
          if utxos.length % nUtxosSlice ≠ 0 then 1 else 0) pageStart
        (utxos.length / nUtxosSlice +
          if utxos.length % nUtxosSlice ≠ 0 then 1 else 0) pageStart
        nullSolution nullSolution with
    | error e => rw [hloop] at h; exact Except.noConfusion h
    | ok out =>
      obtain ⟨p, cur, best⟩ := out
      simp only [hloop] at h
      have hinv := selLoop_inv env address utxos expected fRandom fInstantPay
        _ pageStart _ pageStart nullSolution nullSolution (p, cur, best)
        ⟨by simp [nullSolution, amtOf], by simp [nullSolution, keysOf]⟩
        (Or.inl rfl) hloop
      by_cases h1 : (p + 1) % (utxos.length / nUtxosSlice +
          if utxos.length % nUtxosSlice ≠ 0 then 1 else 0) = pageStart ∧
          best.IsNull = true
      · rw [if_pos h1] at h; exact Except.noConfusion h
      · rw [if_neg h1] at h
        by_cases h2 : best.IsNull = true
        · rw [if_pos h2] at h; exact Except.noConfusion h
        · rw [if_neg h2] at h
          injection h with h
          subst h
          have hBest := hinv.2
          dsimp only at hBest
          rcases hBest with hnull | ⟨⟨hamt, hnd⟩, hsat, hch⟩
          · exact absurd (by simp [CUnspentSolution.IsNull, hnull]) h2
          · exact ⟨hamt, hnd, hsat, hch, by omega, by intro he; omega⟩

/-- Witness for C3: the invariants evaluated on the scenario selection,
which picks the 5 and 3 SMART outputs for a requested 6 SMART. -/
theorem claim_C3_witness :
    address_utxos_amount scen1Env 42 scen1Utxos 600000000 false false 0 =
      .ok ⟨[(⟨100, 0, 10⟩, ⟨500000000⟩), (⟨100, 1, 10⟩, ⟨300000000⟩)],
        800000000, 100000, 199900000⟩ ∧
    ((800000000 : Int) =
      amtOf [(⟨100, 0, 10⟩, ⟨500000000⟩), (⟨100, 1, 10⟩, ⟨300000000⟩)] ∧
    (keysOf [((⟨100, 0, 10⟩ : UnspentKey), (⟨500000000⟩ : UnspentValue)),
      (⟨100, 1, 10⟩, ⟨300000000⟩)]).Nodup ∧
    (600000000 : Int) + 100000 ≤ 800000000 ∧
    (199900000 : Int) = 800000000 - 600000000 - 100000 ∧
    (0 : Int) ≤ 199900000 ∧
    ((800000000 : Int) = 600000000 + 100000 → (199900000 : Int) = 0)) :=
  ⟨by decide, claim_C3_solution_invariants scen1Env 42 scen1Utxos 600000000
    false false 0
    ⟨[(⟨100, 0, 10⟩, ⟨500000000⟩), (⟨100, 1, 10⟩, ⟨300000000⟩)],
      800000000, 100000, 199900000⟩ (by decide)⟩

/-- Selection amounts are invariant under permutation. -/
theorem amtOf_perm {l1 l2 : List UnspentPair} (h : l1.Perm l2) :
    amtOf l1 = amtOf l2 := by
  simp only [amtOf]
  exact (h.map (fun u => u.2.satoshis)).sum_eq

/-- The fee of a selection depends only on its input count. -/
theorem feeOf_congr_length (l1 l2 : List UnspentPair)
    (h : l1.length = l2.length) : feeOf l1 = feeOf l2 := by
  cases l1 with
  | nil =>
    cases l2 with
    | nil => rfl
    | cons b t2 => simp at h
  | cons a t1 =>
    cases l2 with
    | nil => simp at h
    | cons b t2 => simp only [feeOf, List.isEmpty_cons, h]

/-- The time-lock filter keeps a slice whole when every output in it is
reported unlocked. -/
theorem filterUnlocked_all_ok (env : SelectEnv) (address : Nat) :
    ∀ l : List UnspentPair,
      (∀ u ∈ l, IsTimeLocked env.chain u.1.nBlockHeight u.1.txhash address =
        .ok false) →
      filterUnlocked env address l = .ok l := by
  intro l
  induction l with
  | nil => intro _; rfl
  | cons u rest ih =>
    intro h
    have h1 := h u (List.mem_cons_self u rest)
    have h2 := ih (fun v hv => h v (List.mem_cons_of_mem u hv))
    simp only [filterUnlocked, h1, h2]
    rfl

/-- Inserting an element that dominates a whole list puts it at the head. -/
theorem orderedInsert_head (a : UnspentPair) (l : List UnspentPair)
    (h : ∀ b ∈ l, amountHTL a b) :
    List.orderedInsert amountHTL a l = a :: l := by
  cases l with
  | nil => rfl
  | cons b t => simp [List.orderedInsert, h b (List.mem_cons_self b t)]

/-- Sorting a list whose elements all compare equal leaves it unchanged. -/
theorem sortHTL_const : ∀ l : List UnspentPair,
    (∀ a ∈ l, ∀ b ∈ l, amountHTL a b) → sortHTL l = l := by
  intro l
  induction l with
  | nil => intro _; rfl
  | cons a t ih =>
    intro h
    have ht : sortHTL t = t := ih (fun x hx y hy =>
      h x (List.mem_cons_of_mem a hx) y (List.mem_cons_of_mem a hy))
    simp only [sortHTL, List.insertionSort] at ht ⊢
    rw [ht]
    exact orderedInsert_head a t
      (fun b hb => h a (List.mem_cons_self a t) b (List.mem_cons_of_mem a hb))

/-- The filler slice is already sorted: all its amounts are equal. -/
theorem sortHTL_smalls : sortHTL smalls = smalls := by
  apply sortHTL_const
  intro a ha b hb
  simp only [smalls, List.mem_map] at ha hb
  obtain ⟨i, _, rfl⟩ := ha
  obtain ⟨j, _, rfl⟩ := hb
  simp [amountHTL]

/-- Filtering an index range by a predicate holding only at zero yields the
singleton zero. -/
theorem filter_range_zero (p : Nat → Bool) (h0 : p 0 = true)
    (h1 : ∀ i : Nat, p (i + 1) = false) :
    ∀ n, 1 ≤ n → (List.range n).filter p = [0] := by
  intro n hn
  match n, hn with
  | m + 1, _ =>
    rw [List.range_succ_eq_map, List.filter_cons_of_pos h0]
    have hnil : ((List.range m).map Nat.succ).filter p = [] := by
      refine List.filter_eq_nil_iff.mpr ?_
      intro x hx
      obtain ⟨i, _, rfl⟩ := List.mem_map.mp hx
      simp [Nat.succ_eq_add_one, h1 i]
    rw [hnil]

/-- The filler slice passes the time-lock filter whole whenever its one
funding transaction is reported unlocked at its height. -/
theorem smalls_unlocked (env : SelectEnv)
    (h : IsTimeLocked env.chain 10 100 42 = .ok false) :
    filterUnlocked env 42 smalls = .ok smalls := by
  apply filterUnlocked_all_ok
  intro u hu
  simp only [smalls, List.mem_map] at hu
  obtain ⟨i, _, rfl⟩ := hu
  exact h

/-- Length of the two-slice unspent set. -/
theorem smalls_length : smalls.length = 2000 := by simp [smalls]

/-- The two-slice unspent set holds 2001 outputs. -/
theorem bigPage_length : bigPageUtxos.length = 2001 := by
  rw [show bigPageUtxos = smalls ++ [bigU] from rfl, List.length_append,
    smalls_length]
  rfl

/-- The first scanned page of the two-slice set is the filler slice. -/
theorem slice0 : sliceAt bigPageUtxos 2 0 = smalls := by
  unfold sliceAt
  rw [bigPage_length]
  norm_num [nUtxosSlice]
  rw [show bigPageUtxos = smalls ++ [bigU] from rfl]
  exact List.take_left' smalls_length

/-- The second scanned page of the two-slice set is the large output. -/
theorem slice1 : sliceAt bigPageUtxos 2 1 = [bigU] := by
  unfold sliceAt
  rw [bigPage_length]
  norm_num [nUtxosSlice]
  rw [show bigPageUtxos = smalls ++ [bigU] from rfl,
    List.drop_left' smalls_length]
  rfl

/-- Under the mempool-spend pattern of `bigPageEnv` only the filler output
of index zero stays eligible. -/
theorem smalls_elig_big :
    smalls.filter (eligibleUtxo bigPageEnv false) = [smallAt0] := by
  simp only [smalls]
  rw [List.filter_map]
  rw [filter_range_zero (eligibleUtxo bigPageEnv false ∘
      (fun i => ((⟨100, i, 10⟩ : UnspentKey), (⟨100000000⟩ : UnspentValue))))
    (by decide)
    (by
      intro i
      simp [eligibleUtxo, bigPageEnv, Function.comp, Nat.le_add_left])
    2000 (by norm_num)]
  rfl

/-- Under the everything-spent mempool no filler output is eligible. -/
theorem smalls_elig_spent :
    smalls.filter (eligibleUtxo allSpentEnv false) = [] := by
  refine List.filter_eq_nil_iff.mpr ?_
  intro u _
  simp [eligibleUtxo, allSpentEnv]

/-- One deterministic-mode iteration of the page loop, with the slice's
filter outcome supplied: the sorted unlocked slice is walked, and the loop
exits on wrap-around or recurses on the advanced page. -/
theorem selLoop_step_det (env : SelectEnv) (address : Nat)
    (utxos : List UnspentPair) (expected : Int) (fInstantPay : Bool)
    (nPages pageStart fuel page : Nat) (cur best : CUnspentSolution)
    (unlocked : List UnspentPair)
    (hfu : filterUnlocked env address (sliceAt utxos nPages page) =
      .ok unlocked) :
    selLoop env address utxos expected false fInstantPay nPages pageStart
      (fuel + 1) page cur best =
    (if (page + 1) % nPages = pageStart then
      .ok (page + 1,
        (selWalk env expected false fInstantPay (sortHTL unlocked) cur best).1,
        (selWalk env expected false fInstantPay (sortHTL unlocked) cur best).2)
     else
      selLoop env address utxos expected false fInstantPay nPages pageStart
        fuel (page + 1)
        (selWalk env expected false fInstantPay (sortHTL unlocked) cur best).1
        (selWalk env expected false fInstantPay (sortHTL unlocked) cur
          best).2) := by
  simp only [selLoop, hfu]
  rcases hsw : selWalk env expected false fInstantPay (sortHTL unlocked) cur
    best with ⟨c, b⟩
  simp only [Bool.false_eq_true, if_false, and_false]
  rw [hsw]

/-- The two-slice run under `bigPageEnv`: the first page leaves the one
eligible filler output in the running selection, which the second page
completes with the large output and accepts. -/
theorem bigPage_loop :
    selLoop bigPageEnv 42 bigPageUtxos 3000000000 false false 2 0 2 0
      nullSolution nullSolution =
    .ok (2, nullSolution, accepted 3000000000 [smallAt0, bigU]) := by
  have hfu0 : filterUnlocked bigPageEnv 42 (sliceAt bigPageUtxos 2 0) =
      .ok smalls := by
    rw [slice0]
    exact smalls_unlocked bigPageEnv (by decide)
  have hfu1 : filterUnlocked bigPageEnv 42 (sliceAt bigPageUtxos 2 (0 + 1)) =
      .ok [bigU] := by
    rw [show (0 + 1 : Nat) = 1 from rfl, slice1]
    decide
  have hw0 := selWalk_null bigPageEnv 3000000000 false smalls []
    (by rw [List.nil_append, smalls_elig_big]; decide)
    (satisfies_nil 3000000000 (by norm_num))
  rw [smalls_elig_big,
    show firstSat 3000000000 [] [smallAt0] = none from by decide] at hw0
  simp only [List.nil_append, show (solOf [] = nullSolution) from rfl] at hw0
  have hw1 := selWalk_null bigPageEnv 3000000000 false [bigU] [smallAt0]
    (by decide) (by decide)
  rw [show ([bigU].filter (eligibleUtxo bigPageEnv false)) = [bigU] from
      by decide,
    show firstSat 3000000000 [smallAt0] [bigU] = some [smallAt0, bigU] from
      by decide] at hw1
  show selLoop bigPageEnv 42 bigPageUtxos 3000000000 false false 2 0 (1 + 1) 0
    nullSolution nullSolution = _
  rw [selLoop_step_det bigPageEnv 42 bigPageUtxos 3000000000 false 2 0 1 0
    nullSolution nullSolution smalls hfu0]
  rw [sortHTL_smalls, hw0]
  rw [if_neg (show ¬((0 + 1) % 2 = 0) from by norm_num)]
  show selLoop bigPageEnv 42 bigPageUtxos 3000000000 false false 2 0 (0 + 1)
    (0 + 1) (solOf [smallAt0]) nullSolution = _
  rw [selLoop_step_det bigPageEnv 42 bigPageUtxos 3000000000 false 2 0 0
    (0 + 1) (solOf [smallAt0]) nullSolution [bigU] hfu1]
  rw [show sortHTL [bigU] = [bigU] from by decide, hw1]
  rw [if_pos (show (0 + 1 + 1) % 2 = 0 from by norm_num)]

/-- The two-slice run under `allSpentEnv`: both pages are walked, no
candidate is eligible, and the loop exits by wrap-around with the best
solution still null. -/
theorem allSpent_loop :
    selLoop allSpentEnv 42 bigPageUtxos 1000000000 false false 2 0 2 0
      nullSolution nullSolution = .ok (2, nullSolution, nullSolution) := by
  have hfu0 : filterUnlocked allSpentEnv 42 (sliceAt bigPageUtxos 2 0) =
      .ok smalls := by
    rw [slice0]
    exact smalls_unlocked allSpentEnv (by decide)
  have hfu1 : filterUnlocked allSpentEnv 42 (sliceAt bigPageUtxos 2 (0 + 1)) =
      .ok [bigU] := by
    rw [show (0 + 1 : Nat) = 1 from rfl, slice1]
    decide
  have hw0 := selWalk_null allSpentEnv 1000000000 false smalls []
    (by rw [List.nil_append, smalls_elig_spent]; decide)
    (satisfies_nil 1000000000 (by norm_num))
  rw [smalls_elig_spent] at hw0
  simp only [List.append_nil, firstSat,
    show (solOf [] = nullSolution) from rfl] at hw0
  have hw1 := selWalk_null allSpentEnv 1000000000 false [bigU] []
    (by rw [List.nil_append,
          show ([bigU].filter (eligibleUtxo allSpentEnv false)) = [] from
            by decide]
        decide)
    (satisfies_nil 1000000000 (by norm_num))
  rw [show ([bigU].filter (eligibleUtxo allSpentEnv false)) = [] from
    by decide] at hw1
  simp only [List.append_nil, firstSat,
    show (solOf [] = nullSolution) from rfl] at hw1
  show selLoop allSpentEnv 42 bigPageUtxos 1000000000 false false 2 0 (1 + 1)
    0 nullSolution nullSolution = _
  rw [selLoop_step_det allSpentEnv 42 bigPageUtxos 1000000000 false 2 0 1 0
    nullSolution nullSolution smalls hfu0]
  rw [sortHTL_smalls, hw0]
  rw [if_neg (show ¬((0 + 1) % 2 = 0) from by norm_num)]
  show selLoop allSpentEnv 42 bigPageUtxos 1000000000 false false 2 0 (0 + 1)
    (0 + 1) nullSolution nullSolution = _
  rw [selLoop_step_det allSpentEnv 42 bigPageUtxos 1000000000 false 2 0 0
    (0 + 1) nullSolution nullSolution [bigU] hfu1]
  rw [show sortHTL [bigU] = [bigU] from by decide, hw1]
  rw [if_pos (show (0 + 1 + 1) % 2 = 0 from by norm_num)]

/-- Unfolding of the selection endpoint past its emptiness test. -/
theorem address_utxos_amount_eq (env : SelectEnv) (address : Nat)
    (utxos : List UnspentPair) (expected : Int)
    (fRandom fInstantPay : Bool) (pageStart : Nat)
    (hne : ¬(utxos.length = 0)) :
    address_utxos_amount env address utxos expected fRandom fInstantPay
      pageStart =
    (match selLoop env address utxos expected fRandom fInstantPay
        (utxos.length / nUtxosSlice +
          if utxos.length % nUtxosSlice ≠ 0 then 1 else 0) pageStart
        (utxos.length / nUtxosSlice +
          if utxos.length % nUtxosSlice ≠ 0 then 1 else 0) pageStart
        nullSolution nullSolution with
     | .error e => .error e
     | .ok (page, _, best) =>
       if (page + 1) % (utxos.length / nUtxosSlice +
           if utxos.length % nUtxosSlice ≠ 0 then 1 else 0) = pageStart ∧
           best.IsNull then
         .error .BalanceInsufficient
       else if best.IsNull then .error .TimedOut
       else .ok best) := by
  simp only [address_utxos_amount, if_neg hne]

/-- The two-slice unspent set spans two scan pages. -/
theorem bigPage_nPages :
    bigPageUtxos.length / nUtxosSlice +
      (if bigPageUtxos.length % nUtxosSlice ≠ 0 then 1 else 0) = 2 := by
  rw [bigPage_length]
  norm_num [nUtxosSlice]

/-- Claim C1 amended: minimality holds within a single scanned slice.  When
the address's outputs fit in one slice and the deterministic selection
succeeds, the returned solution uses no more inputs than any satisfying
sub-multiset of the slice's unlocked eligible candidates; and on the
scenario outputs of 5, 3 and 1 coins with 6 coins requested it selects the
two largest with the two-input fee and the exact change.  (Across several
slices the running selection carries over without reset, so the general
claim fails: see the counterexample.) -/
theorem claim_C1_deterministic_minimality (env : SelectEnv) (address : Nat)
    (utxos unlocked : List UnspentPair) (expected : Int) (fInstantPay : Bool)
    (sol : CUnspentSolution) (S : List UnspentPair)
    (hlen : utxos.length ≤ nUtxosSlice)
    (hexp : 1 ≤ expected)
    (hunlock : filterUnlocked env address utxos = .ok unlocked)
    (hnd : (keysOf ((sortHTL unlocked).filter
      (eligibleUtxo env fInstantPay))).Nodup)
    (hok : address_utxos_amount env address utxos expected false fInstantPay
      0 = .ok sol)
    (hsub : S.Subperm ((sortHTL unlocked).filter (eligibleUtxo env fInstantPay)))
    (hsat : satisfies expected S) :
    sol.vecUtxos.length ≤ S.length ∧
    address_utxos_amount scen1Env 42 scen1Utxos 600000000 false false 0 =
      .ok ⟨[(⟨100, 0, 10⟩, ⟨500000000⟩), (⟨100, 1, 10⟩, ⟨300000000⟩)],
        800000000, 100000, 199900000⟩ := by
  have hne : utxos ≠ [] := by
    intro hc
    rw [hc] at hok
    simp [address_utxos_amount] at hok
  rw [select_onePage env address utxos unlocked expected fInstantPay hne hlen
    hexp hunlock hnd] at hok
  refine ⟨?_, by decide⟩
  cases hfs : firstSat expected []
      ((sortHTL unlocked).filter (eligibleUtxo env fInstantPay)) with
  | none => rw [hfs] at hok; exact Except.noConfusion hok
  | some d' =>
    rw [hfs] at hok
    injection hok with hok
    subst hok
    obtain ⟨k, hk1, hkle, hd, hsatd, hmin⟩ := firstSat_some expected
      ((sortHTL unlocked).filter (eligibleUtxo env fInstantPay)) [] d'
      (satisfies_nil expected hexp) hfs
    simp only [List.nil_append] at hd hmin
    have hlen_d : (accepted expected d').vecUtxos.length = k := by
      simp only [accepted, solOf, hd, List.length_take]
      omega
    rw [hlen_d]
    by_contra hlt
    push_neg at hlt
    obtain ⟨S', hperm, hsl⟩ := hsub
    have hsorted : List.Sorted amountHTL
        ((sortHTL unlocked).filter (eligibleUtxo env fInstantPay)) :=
      (List.sorted_insertionSort amountHTL unlocked).filter _
    have h1 := amt_sublist_le_take _ S' hsorted hsl
    have hlS : S'.length = S.length := hperm.length_eq
    have hamt : amtOf S' = amtOf S := amtOf_perm hperm
    have hSle : S.length ≤
        ((sortHTL unlocked).filter (eligibleUtxo env fInstantPay)).length := by
      have := hsl.length_le
      omega
    have htklen : (((sortHTL unlocked).filter
        (eligibleUtxo env fInstantPay)).take S.length).length = S.length := by
      rw [List.length_take]
      omega
    have hfee : feeOf (((sortHTL unlocked).filter
        (eligibleUtxo env fInstantPay)).take S.length) = feeOf S :=
      feeOf_congr_length _ _ htklen
    have hsatTake : satisfies expected (((sortHTL unlocked).filter
        (eligibleUtxo env fInstantPay)).take S.length) := by
      simp only [satisfies] at hsat ⊢
      rw [hfee]
      rw [hlS] at h1
      omega
    exact hmin S.length hlt hsatTake

/-- Witness for the amended C1 at the scenario input, taking the competing
subset to be the whole three-output candidate list. -/
theorem claim_C1_witness :
    (scen1Utxos.length ≤ nUtxosSlice ∧
     (1 : Int) ≤ 600000000 ∧
     filterUnlocked scen1Env 42 scen1Utxos = .ok scen1Utxos ∧
     (keysOf ((sortHTL scen1Utxos).filter
       (eligibleUtxo scen1Env false))).Nodup ∧
     address_utxos_amount scen1Env 42 scen1Utxos 600000000 false false 0 =
       .ok ⟨[(⟨100, 0, 10⟩, ⟨500000000⟩), (⟨100, 1, 10⟩, ⟨300000000⟩)],
         800000000, 100000, 199900000⟩ ∧
     ((sortHTL scen1Utxos).filter (eligibleUtxo scen1Env false)).Subperm
       ((sortHTL scen1Utxos).filter (eligibleUtxo scen1Env false)) ∧
     satisfies 600000000
       ((sortHTL scen1Utxos).filter (eligibleUtxo scen1Env false))) ∧
    (⟨[(⟨100, 0, 10⟩, ⟨500000000⟩), (⟨100, 1, 10⟩, ⟨300000000⟩)],
      800000000, 100000, 199900000⟩ : CUnspentSolution).vecUtxos.length ≤
      ((sortHTL scen1Utxos).filter (eligibleUtxo scen1Env false)).length :=
  ⟨⟨by decide, by decide, by decide, by decide, by decide,
    List.Subperm.refl _, by decide⟩,
   (claim_C1_deterministic_minimality scen1Env 42 scen1Utxos scen1Utxos
     600000000 false
     ⟨[(⟨100, 0, 10⟩, ⟨500000000⟩), (⟨100, 1, 10⟩, ⟨300000000⟩)],
       800000000, 100000, 199900000⟩
     ((sortHTL scen1Utxos).filter (eligibleUtxo scen1Env false))
     (by decide) (by decide) (by decide) (by decide) (by decide)
     (List.Subperm.refl _) (by decide)).1⟩

/-- Counterexample to claim C1's general clause: across two scanned slices
the deterministic selection returns a two-input solution although the
single unlocked eligible large output among the scanned utxos satisfies the
request alone — the running selection of the first slice carries into the
second without reset. -/
theorem claim_C1_counterexample :
    address_utxos_amount bigPageEnv 42 bigPageUtxos 3000000000 false false
      0 = .ok (accepted 3000000000 [smallAt0, bigU]) ∧
    (accepted 3000000000 [smallAt0, bigU]).vecUtxos.length = 2 ∧
    [bigU].Sublist bigPageUtxos ∧
    filterUnlocked bigPageEnv 42 [bigU] = .ok [bigU] ∧
    eligibleUtxo bigPageEnv false bigU = true ∧
    satisfies 3000000000 [bigU] ∧
    ¬((accepted 3000000000 [smallAt0, bigU]).vecUtxos.length ≤
      ([bigU] : List UnspentPair).length) := by
  refine ⟨?_, by decide, ?_, by decide, by decide, by decide, by decide⟩
  · rw [address_utxos_amount_eq bigPageEnv 42 bigPageUtxos 3000000000 false
      false 0 (by rw [bigPage_length]; norm_num)]
    simp only [bigPage_nPages, bigPage_loop]
    rw [if_neg (show ¬((2 + 1) % 2 = 0 ∧
      (accepted 3000000000 [smallAt0, bigU]).IsNull = true) from
      by norm_num)]
    rw [if_neg (show ¬((accepted 3000000000 [smallAt0, bigU]).IsNull = true)
      from by decide)]
  · rw [show bigPageUtxos = smalls ++ [bigU] from rfl]
    exact List.sublist_append_right smalls [bigU]

/-- Claim C2: with 2001 unspent outputs all spent in the mempool and a
requested amount above the spendable balance, the loop completes a full
wrap-around over both slices without a solution and without any timeout
elapsing (the embedding has no clock), yet the endpoint returns `TimedOut`
rather than `BalanceInsufficient`: after the loop the source increments the
already-incremented page counter once more (sapi_address.cpp:887,892), so
the full-wrap test fails whenever more than one slice exists. -/
theorem claim_C2_full_wrap_misreported :
    address_utxos_amount allSpentEnv 42 bigPageUtxos 1000000000 false false
      0 = .error .TimedOut ∧
    ¬(address_utxos_amount allSpentEnv 42 bigPageUtxos 1000000000 false false
      0 = .error .BalanceInsufficient) := by
  have hrun : address_utxos_amount allSpentEnv 42 bigPageUtxos 1000000000
      false false 0 = .error .TimedOut := by
    rw [address_utxos_amount_eq allSpentEnv 42 bigPageUtxos 1000000000 false
      false 0 (by rw [bigPage_length]; norm_num)]
    simp only [bigPage_nPages, allSpent_loop]
    rw [if_neg (show ¬((2 + 1) % 2 = 0 ∧ nullSolution.IsNull = true) from
      by norm_num)]
    rw [if_pos (show nullSolution.IsNull = true from by decide)]
  refine ⟨hrun, ?_⟩
  rw [hrun]
  intro hc
  exact SapiErr.noConfusion (Except.error.inj hc)
